import Mathlib

/-!
# csv-cut: range selection and the two scanners

A shallow embedding of `csv.go` (the quoted-record tool) and `cut/cut.go`
(the line tool).  Go strings and byte slices are lists of bytes; a byte is a
natural number below 256 (the definitions never need the bound).  Go `int`
values that hold range bounds and field numbers are integers.  A Go runtime
failure (index or slice out of range) is the result `none`.
-/

namespace CsvCut

/-- A Go byte (values below 256). -/
abbrev Byte := Nat

/-- A Go string or byte slice. -/
abbrev Bytes := List Nat

def DQUOTE : Byte := 0x22
def COMMA : Byte := 0x2c
def CR : Byte := 0x0d
def LF : Byte := 0x0a
/-- The byte of `"-"`. -/
def DASH : Byte := 0x2d
/-- The byte of `"+"`. -/
def PLUS : Byte := 0x2b

/-- The struct `Range` of both tools. -/
structure Range where
  start : Int
  «end» : Int
deriving DecidableEq, Repr

/-- The constructor function `NewRange`. -/
def NewRange (start : Int) (e : Int) : Range := ⟨start, e⟩

/-- The method `Range.Contains`: the three cases of the switch, in order. -/
def Range.Contains (r : Range) (number : Int) : Bool :=
  if r.start = 0 ∧ number ≤ r.end then true
  else if r.end = 0 ∧ r.start ≤ number then true
  else if r.start ≤ number ∧ number ≤ r.end then true
  else false

/-! ## Library functions used by the parsers -/

/-- The error kinds of `strconv`. -/
inductive NumError where
  | errSyntax
  | errRange
deriving DecidableEq, Repr

/-- The largest value of the unsigned 32-bit parse (`maxVal` in `ParseUint`). -/
def maxVal32 : Nat := 2 ^ 32 - 1

/-- The digit loop of `strconv.ParseUint(s, 10, 32)`: a byte outside `'0'..'9'`
is a syntax error with value 0 (in base 10 a letter is a digit value of 10 or
more, an underscore is only read in base 0); a value above `maxVal32` stops the
loop at once, before the later bytes are looked at, with value `maxVal32` and a
range error (the guard against 64-bit overflow cannot fire earlier). -/
def parseUintLoop : Bytes → Nat → Nat × Option NumError
  | [], n => (n, none)
  | c :: cs, n =>
    if 48 ≤ c ∧ c ≤ 57 then
      let n1 := n * 10 + (c - 48)
      if n1 > maxVal32 then (maxVal32, some .errRange) else parseUintLoop cs n1
    else (0, some .errSyntax)

/-- The function `strconv.ParseUint(s, 10, 32)`. -/
def parseUint (s : Bytes) : Nat × Option NumError :=
  if s = [] then (0, some .errSyntax) else parseUintLoop s 0

/-- The function `strconv.ParseInt(s, 10, 32)`: value and error. On a syntax
error the value is 0; on a range error it is the nearest bound. -/
def strconvParseInt (s : Bytes) : Int × Option NumError :=
  match s with
  | [] => (0, some .errSyntax)
  | c :: cs =>
    let neg : Bool := c = DASH
    let body : Bytes := if c = PLUS ∨ c = DASH then cs else c :: cs
    match parseUint body with
    | (_, some .errSyntax) => (0, some .errSyntax)
    | (un, _) =>
      let cutoff : Nat := 2 ^ 31
      if ¬ neg ∧ un ≥ cutoff then ((cutoff : Int) - 1, some .errRange)
      else if neg ∧ un > cutoff then (-(cutoff : Int), some .errRange)
      else (if neg then -(un : Int) else (un : Int), none)

/-- The function `strings.Index(s, substr)`: the first position at which
`substr` starts in `s`. -/
def stringsIndex : Bytes → Bytes → Option Nat
  | [], substr => if substr = [] then some 0 else none
  | c :: cs, substr =>
    if substr.isPrefixOf (c :: cs) then some 0
    else (stringsIndex cs substr).map (· + 1)

/-- The loop of `strings.Split(s, sep)` for a non-empty `sep`: cut at each
occurrence of `sep` found by `strings.Index`, at most `fuel` times. -/
def splitLoop : Nat → Bytes → Bytes → List Bytes
  | 0, s, _ => [s]
  | fuel + 1, s, sep =>
    match stringsIndex s sep with
    | none => [s]
    | some m => s.take m :: splitLoop fuel (s.drop (m + sep.length)) sep

/-- The rune `utf8.RuneError`, U+FFFD. -/
def RuneError : Nat := 0xFFFD

/-- The function `utf8.DecodeRune`: the first rune of `s` and its width in
bytes; an invalid or cut-off encoding is `RuneError` with width 1, the empty
string is `RuneError` with width 0. -/
def decodeRune : Bytes → Nat × Nat
  | [] => (RuneError, 0)
  | b0 :: rest =>
    if b0 < 0x80 then (b0, 1)
    else if 0xC2 ≤ b0 ∧ b0 ≤ 0xDF then
      match rest with
      | b1 :: _ =>
        if 0x80 ≤ b1 ∧ b1 ≤ 0xBF then ((b0 % 32) * 64 + b1 % 64, 2) else (RuneError, 1)
      | [] => (RuneError, 1)
    else if 0xE0 ≤ b0 ∧ b0 ≤ 0xEF then
      let lo := if b0 = 0xE0 then 0xA0 else 0x80
      let hi := if b0 = 0xED then 0x9F else 0xBF
      match rest with
      | b1 :: b2 :: _ =>
        if lo ≤ b1 ∧ b1 ≤ hi ∧ 0x80 ≤ b2 ∧ b2 ≤ 0xBF then
          (((b0 % 16) * 64 + b1 % 64) * 64 + b2 % 64, 3)
        else (RuneError, 1)
      | _ => (RuneError, 1)
    else if 0xF0 ≤ b0 ∧ b0 ≤ 0xF4 then
      let lo := if b0 = 0xF0 then 0x90 else 0x80
      let hi := if b0 = 0xF4 then 0x8F else 0xBF
      match rest with
      | b1 :: b2 :: b3 :: _ =>
        if lo ≤ b1 ∧ b1 ≤ hi ∧ 0x80 ≤ b2 ∧ b2 ≤ 0xBF ∧ 0x80 ≤ b3 ∧ b3 ≤ 0xBF then
          ((((b0 % 8) * 64 + b1 % 64) * 64 + b2 % 64) * 64 + b3 % 64, 4)
        else (RuneError, 1)
      | _ => (RuneError, 1)
    else (RuneError, 1)

/-- The conversion `string(r)` of one rune (`utf8.EncodeRune`): surrogates and
values above U+10FFFF are written as `RuneError`. -/
def encodeRune (r : Nat) : Bytes :=
  if r < 0x80 then [r]
  else if r < 0x800 then [0xC0 + r / 64, 0x80 + r % 64]
  else if (0xD800 ≤ r ∧ r ≤ 0xDFFF) ∨ 0x10FFFF < r then [0xEF, 0xBF, 0xBD]
  else if r < 0x10000 then [0xE0 + r / 4096, 0x80 + r / 64 % 64, 0x80 + r % 64]
  else [0xF0 + r / 262144, 0x80 + r / 4096 % 64, 0x80 + r / 64 % 64, 0x80 + r % 64]

/-- The conversion `[]rune(s)`, at most `fuel` runes. -/
def runesLoop : Nat → Bytes → List Nat
  | 0, _ => []
  | fuel + 1, s =>
    match s with
    | [] => []
    | _ :: _ => (decodeRune s).1 :: runesLoop fuel (s.drop (decodeRune s).2)

/-- The conversion `[]rune(s)`. -/
def runes (s : Bytes) : List Nat := runesLoop s.length s

/-- The conversion `string(rs)` of a slice of runes. -/
def runesToString (rs : List Nat) : Bytes := (rs.map encodeRune).flatten

/-- The function `explode` behind `strings.Split(s, "")`: one piece per
UTF-8 sequence of `s`, none for the empty string. -/
def explode : Nat → Bytes → List Bytes
  | 0, _ => []
  | fuel + 1, s =>
    match s with
    | [] => []
    | _ :: _ => s.take (decodeRune s).2 :: explode fuel (s.drop (decodeRune s).2)

/-- The function `strings.Split(s, sep)`: for a non-empty `sep` the pieces
between its occurrences (a string of length `n` holds at most `n` of them), for
an empty `sep` the UTF-8 sequences of `s`. -/
def stringsSplit (s sep : Bytes) : List Bytes :=
  if sep = [] then explode s.length s else splitLoop s.length s sep

/-- The function `strings.Contains(s, substr)`. -/
def stringsContains (s substr : Bytes) : Bool := (stringsIndex s substr).isSome

/-- The function `strings.TrimSuffix(s, suffix)`. -/
def stringsTrimSuffix (s suffix : Bytes) : Bytes :=
  if suffix.isSuffixOf s then s.take (s.length - suffix.length) else s

/-- The function `fmt.Sprintln` of one string: the string and a newline. -/
def fmtSprintln (s : Bytes) : Bytes := s ++ [LF]

/-- The loop of `bufio.Reader.ReadString` over a whole input: `cur` holds the
bytes read since the last newline; the last piece is the one returned together
with `io.EOF`. -/
def readStringLoop : Bytes → Bytes → List Bytes
  | [], cur => [cur]
  | c :: cs, cur =>
    if c = LF then (cur ++ [c]) :: readStringLoop cs [] else readStringLoop cs (cur ++ [c])

/-- The strings that successive calls of `ReadString` hand out for an input
that is read to its end: each line with its newline, then what follows the last
newline (possibly nothing) together with `io.EOF`. -/
def readStrings (input : Bytes) : List Bytes := readStringLoop input []

/-- The index expression `xs[i]`, which fails outside the bounds. -/
def index? {α : Type} (xs : List α) (i : Int) : Option α :=
  if i < 0 then none else xs.get? i.toNat

/-- The slice expression `xs[lo:hi]`, which fails outside the bounds. -/
def slice? {α : Type} (xs : List α) (lo hi : Int) : Option (List α) :=
  if lo < 0 ∨ hi < lo ∨ (xs.length : Int) < hi then none
  else some ((xs.drop lo.toNat).take (hi.toNat - lo.toNat))

/-! ## Range parsing (the same code in both tools) -/

/-- The function `parseInt`: the error of `strconv.ParseInt` is dropped. -/
def parseInt (raw : Bytes) : Int := (strconvParseInt raw).1

/-- The function `parseRange`. -/
def parseRange (raw : Bytes) : Range :=
  match stringsIndex raw [DASH] with
  | none =>
    let number := parseInt raw
    NewRange number number
  | some splitPosition =>
    let lower := raw.take splitPosition
    let upper := raw.drop (splitPosition + 1)
    NewRange (parseInt lower) (parseInt upper)

/-- The function `parseRanges`. -/
def parseRanges (rawRanges : Bytes) : List Range :=
  if rawRanges.length = 0 then []
  else (stringsSplit rawRanges [COMMA]).map parseRange

/-- The bytes of an ASCII string literal. -/
def ascii (s : String) : Bytes := s.toList.map Char.toNat

/-- The function `strings.Join` (and `bytes.Join`): the pieces with `sep`
between neighbours. -/
def stringsJoin : List Bytes → Bytes → Bytes
  | [], _ => []
  | [a], _ => a
  | a :: b :: rest, sep => a ++ sep ++ stringsJoin (b :: rest) sep

end CsvCut

/-! ## The quoted-record tool, `csv.go` -/

namespace Csv
open CsvCut

/-- The struct `parameters` of `csv.go`, without the fields that only the
command line layer reads (`input`, `headers`, `cpuProfile`, `printUsage`,
`printVersion`). -/
structure parameters where
  ranges : List Range
  inputDelimiter : Bytes
  outputDelimiter : Bytes
  complement : Bool
  lineEnd : Bytes
deriving DecidableEq, Repr

/-- The range loop of `isSelected`: the first range that decides returns. -/
def isSelectedLoop (complement : Bool) (field : Int) : List Range → Bool
  | [] => false
  | aRange :: rest =>
    let contained := aRange.Contains field
    if complement = false ∧ contained = true then true
    else if complement = true ∧ contained = false then true
    else isSelectedLoop complement field rest

/-- The function `isSelected`. -/
def isSelected (p : parameters) (field : Int) : Bool :=
  if p.ranges.length = 0 then true
  else isSelectedLoop p.complement field p.ranges

/-- The local variables of `cutFile` that live across bytes, and the bytes
written to `bufferedOutput` so far. -/
structure State where
  word : Bytes
  selected : List Bool
  inEscaped : Bool
  inHeader : Bool
  firstWordWritten : Bool
  wordCount : Int
  output : Bytes
deriving DecidableEq, Repr

/-- The state of `cutFile` before the first byte. -/
def State.init : State :=
  { word := [], selected := [], inEscaped := false, inHeader := true,
    firstWordWritten := false, wordCount := 1, output := [] }

/-- The closure `writeOut` of `cutFile` (its result, whether the word was
written, is used by no caller; the argument `eol` is not read). The lookup
`selected[wordCount-1]` fails outside the bounds of `selected`. -/
def writeOut (p : parameters) (s : State) (_eol : Bool) : Option State :=
  let selected :=
    if s.inHeader then s.selected ++ [isSelected p s.wordCount] else s.selected
  if s.wordCount - 1 < 0 then none
  else
    match selected.get? (s.wordCount - 1).toNat with
    | none => none
    | some true =>
      let output := if s.firstWordWritten then s.output ++ p.outputDelimiter else s.output
      some { s with selected := selected, output := output ++ s.word,
                    firstWordWritten := true, word := [] }
    | some false => some { s with selected := selected, word := [] }

/-- The slice `word[len(word)-len(sep):]`, which fails when `word` is shorter
than `sep`. -/
def tail? (word sep : Bytes) : Option Bytes :=
  if word.length < sep.length then none else some (word.drop (word.length - sep.length))

/-- The body of the byte loop of `cutFile` for one byte: the five cases of the
switch, in order. -/
def step (p : parameters) (inputDelimiterEndByte lineEndByte : Byte) (s : State)
    (char : Byte) : Option State :=
  if s.inEscaped = false ∧ char = DQUOTE then
    some { s with inEscaped := true, word := s.word ++ [char] }
  else if s.inEscaped = true ∧ char = DQUOTE then
    some { s with inEscaped := false, word := s.word ++ [char] }
  else if s.inEscaped = false ∧ char = inputDelimiterEndByte then
    let word := s.word ++ [char]
    match tail? word p.inputDelimiter with
    | none => none
    | some t =>
      if t = p.inputDelimiter then
        match writeOut p { s with word := word.take (word.length - p.inputDelimiter.length) } false with
        | none => none
        | some s1 => some { s1 with wordCount := s1.wordCount + 1 }
      else some { s with word := word }
  else if s.inEscaped = false ∧ char = lineEndByte then
    let word := s.word ++ [char]
    match tail? word p.lineEnd with
    | none => none
    | some t =>
      if t = p.lineEnd then
        match writeOut p { s with word := word.take (word.length - p.lineEnd.length) } true with
        | none => none
        | some s1 =>
          let output := if s1.firstWordWritten then s1.output ++ p.lineEnd else s1.output
          some { s1 with output := output, inHeader := false, firstWordWritten := false,
                         wordCount := 1 }
      else some { s with word := word }
  else some { s with word := s.word ++ [char] }

/-- The byte loop over the whole input: `Read` hands the bytes over in chunks,
the state lives across chunks, so the chunking does not show. -/
def steps (p : parameters) (inputDelimiterEndByte lineEndByte : Byte) :
    State → Bytes → Option State
  | s, [] => some s
  | s, char :: rest =>
    match step p inputDelimiterEndByte lineEndByte s char with
    | none => none
    | some s1 => steps p inputDelimiterEndByte lineEndByte s1 rest

/-- The block of `cutFile` that runs when `Read` reports the end of the input. -/
def finish (p : parameters) (s : State) : Option State :=
  if s.word.length > 0 then
    match writeOut p s true with
    | none => none
    | some s1 => some { s1 with wordCount := 0, output := s1.output ++ p.lineEnd }
  else some s

/-- The function `cutFile` of `csv.go` on an input that is read to its end
without a read error: the bytes written, or `none` when the run fails. The
last bytes of an empty delimiter or line end cannot be taken. -/
def cutFile (input : Bytes) (p : parameters) : Option Bytes :=
  match p.inputDelimiter.getLast?, p.lineEnd.getLast? with
  | some inputDelimiterEndByte, some lineEndByte =>
    match steps p inputDelimiterEndByte lineEndByte State.init input with
    | none => none
    | some s =>
      match finish p s with
      | none => none
      | some s1 => some s1.output
  | _, _ => none

end Csv

/-! ## The line tool, `cut/cut.go` -/

namespace Cut
open CsvCut

/-- The constants `fieldMode`, `byteMode`, `characterMode`. -/
inductive Mode where
  | fieldMode
  | byteMode
  | characterMode
deriving DecidableEq, Repr

/-- The struct `parameters` of `cut/cut.go`, without `input`. -/
structure parameters where
  mode : Mode
  ranges : List Range
  inputDelimiter : Bytes
  outputDelimiter : Bytes
  delimitedOnly : Bool
  complement : Bool
deriving DecidableEq, Repr

/-- The inner loop of `selectedFields`: whether some range makes the loop
append `field` and continue with the next field. -/
def selectedFieldsInner (complement : Bool) (field : Int) : List Range → Bool
  | [] => false
  | aRange :: rest =>
    let contained := aRange.Contains field
    if complement = false ∧ contained = true then true
    else if complement = true ∧ contained = false then true
    else selectedFieldsInner complement field rest

/-- The outer loop of `selectedFields`, `todo` iterations from `field` on. -/
def selectedFieldsOuter (p : parameters) : Nat → Int → List Int → List Int
  | 0, _, selected => selected
  | todo + 1, field, selected =>
    if selectedFieldsInner p.complement field p.ranges then
      selectedFieldsOuter p todo (field + 1) (selected ++ [field])
    else selectedFieldsOuter p todo (field + 1) selected

/-- The function `selectedFields`; `total` is a length. -/
def selectedFields (p : parameters) (total : Nat) : List Int :=
  selectedFieldsOuter p total 1 []

/-- The loop shared by the three `collect` functions: the piece of each
selected index in turn, `piece` being the lookup of the loop body. -/
def collectLoop (piece : Int → Option Bytes) : List Int → Option (List Bytes)
  | [] => some []
  | selectedField :: rest =>
    match piece selectedField with
    | none => none
    | some x =>
      match collectLoop piece rest with
      | none => none
      | some xs => some (x :: xs)

/-- The function `collectCharacters`; the loop body is
`string(runes[selectedField-1 : selectedField])`. -/
def collectCharacters (line : Bytes) (p : parameters) : Option (List Bytes) :=
  let rs := runes line
  let selected := selectedFields p rs.length
  if selected.length = 0 then some [line]
  else collectLoop (fun selectedField =>
    (slice? rs (selectedField - 1) selectedField).map runesToString) selected

/-- The function `collectBytes`; the loop body is
`string(bytes[selectedField-1 : selectedField])`. -/
def collectBytes (line : Bytes) (p : parameters) : Option (List Bytes) :=
  let selected := selectedFields p line.length
  if selected.length = 0 then some [line]
  else collectLoop (fun selectedField => slice? line (selectedField - 1) selectedField) selected

/-- The function `collectFields`; the loop body is `fields[selectedField-1]`. -/
def collectFields (line : Bytes) (p : parameters) : Option (List Bytes) :=
  if ¬ stringsContains line p.inputDelimiter then some [line]
  else
    let fields := stringsSplit line p.inputDelimiter
    let selected := selectedFields p fields.length
    if selected.length = 0 then some [line]
    else collectLoop (fun selectedField => index? fields (selectedField - 1)) selected

/-- The function `cutLine`; `none` when a lookup of a `collect` function fails. -/
def cutLine (line : Bytes) (p : parameters) : Option Bytes :=
  let collectedFields :=
    match p.mode with
    | .fieldMode => collectFields line p
    | .byteMode => collectBytes line p
    | .characterMode => collectCharacters line p
  collectedFields.map (fun fs => stringsJoin fs p.outputDelimiter)

/-- The function `skipLine`. -/
def skipLine (line : Bytes) (p : parameters) : Bool :=
  decide (line.length > 0) && p.delimitedOnly && !stringsContains line p.inputDelimiter

/-- The function `ensureNewLine`. -/
def ensureNewLine (line : Bytes) : Bytes := fmtSprintln (stringsTrimSuffix line [LF])

/-- The body of the loop of `cutFile` for one string handed out by
`ReadString`: the bytes written for it. -/
def lineOutput (line : Bytes) (p : parameters) : Option Bytes :=
  if skipLine line p then some []
  else (cutLine line p).map ensureNewLine

/-- The loop of `cutFile` over the strings handed out by `ReadString`. -/
def cutFileLoop (p : parameters) : List Bytes → Option Bytes
  | [] => some []
  | line :: rest =>
    match lineOutput line p with
    | none => none
    | some out =>
      match cutFileLoop p rest with
      | none => none
      | some outs => some (out ++ outs)

/-- The function `cutFile` of `cut/cut.go` on an input that is read to its end
without a read error and written without a write error: the bytes written, or
`none` when the run fails. -/
def cutFile (input : Bytes) (p : parameters) : Option Bytes :=
  cutFileLoop p (readStrings input)

/-- The local variables of `parseArguments`. -/
structure Arguments where
  ranges : Bytes
  mode : Mode
  inputDelimiter : Bytes
  outputDelimiter : Bytes
  fileNames : List Bytes
  delimitedOnly : Bool
  complement : Bool
deriving DecidableEq, Repr

/-- The default values of `parseArguments`; the input delimiter is a tab. -/
def Arguments.default : Arguments :=
  { ranges := [], mode := .fieldMode, inputDelimiter := [0x09], outputDelimiter := [],
    fileNames := [], delimitedOnly := false, complement := false }

/-- The result of `parseArguments`: a failed lookup `rawArguments[index+1]`,
the error of `openInput`, or the parameters. -/
inductive ArgumentsResult where
  | indexOutOfRange
  | openError
  | parsed (p : parameters)
deriving DecidableEq, Repr

/-- The argument loop of `parseArguments` over the arguments from `index` on:
the cases of the switch, in order; an option that stands alone takes its value
from the next argument, which has to exist. -/
def parseArgumentsLoop : List Bytes → Arguments → Option Arguments
  | [], a => some a
  | argument :: rest, a =>
    if argument = ascii "-f" then
      match rest with
      | [] => none
      | value :: rest1 => parseArgumentsLoop rest1 { a with mode := .fieldMode, ranges := value }
    else if (ascii "-f").isPrefixOf argument then
      parseArgumentsLoop rest { a with mode := .fieldMode, ranges := argument.drop 2 }
    else if argument = ascii "-c" then
      match rest with
      | [] => none
      | value :: rest1 =>
        parseArgumentsLoop rest1 { a with mode := .characterMode, ranges := value }
    else if (ascii "-c").isPrefixOf argument then
      parseArgumentsLoop rest { a with mode := .characterMode, ranges := argument.drop 2 }
    else if argument = ascii "-b" then
      match rest with
      | [] => none
      | value :: rest1 => parseArgumentsLoop rest1 { a with mode := .byteMode, ranges := value }
    else if (ascii "-b").isPrefixOf argument then
      parseArgumentsLoop rest { a with mode := .byteMode, ranges := argument.drop 2 }
    else if argument = ascii "-d" then
      match rest with
      | [] => none
      | value :: rest1 => parseArgumentsLoop rest1 { a with inputDelimiter := value }
    else if (ascii "-d").isPrefixOf argument then
      parseArgumentsLoop rest { a with inputDelimiter := argument.drop 2 }
    else if argument = ascii "-s" ∨ argument = ascii "--only-delimited" then
      parseArgumentsLoop rest { a with delimitedOnly := true }
    else if argument = ascii "--complement" then
      parseArgumentsLoop rest { a with complement := true }
    else if argument = ascii "--output-delimiter" then
      match rest with
      | [] => none
      | value :: rest1 => parseArgumentsLoop rest1 { a with outputDelimiter := value }
    else if (ascii "--output-delimiter").isPrefixOf argument then
      parseArgumentsLoop rest { a with outputDelimiter := argument.drop 2 }
    else if argument = ascii "-n" then
      parseArgumentsLoop rest a
    else parseArgumentsLoop rest { a with fileNames := a.fileNames ++ [argument] }

/-- The function `openInput`, as far as it decides the result of
`parseArguments`: standard input needs no file; `openFiles` tells whether the
named files can all be opened. -/
def openInput (openFiles : List Bytes → Bool) (fileNames : List Bytes) : Bool :=
  if fileNames.length = 0 ∨ fileNames.head? = some (ascii "-") then true
  else openFiles fileNames

/-- The function `parseArguments` of `cut/cut.go`. -/
def parseArguments (openFiles : List Bytes → Bool) (rawArguments : List Bytes) :
    ArgumentsResult :=
  match parseArgumentsLoop rawArguments Arguments.default with
  | none => .indexOutOfRange
  | some a =>
    let outputDelimiter :=
      if a.outputDelimiter.length = 0 ∧ a.mode = .fieldMode then a.inputDelimiter
      else a.outputDelimiter
    if openInput openFiles a.fileNames then
      .parsed { mode := a.mode, ranges := parseRanges a.ranges,
                inputDelimiter := a.inputDelimiter, outputDelimiter := outputDelimiter,
                delimitedOnly := a.delimitedOnly, complement := a.complement }
    else .openError

end Cut

/-! ## Vocabulary of the statements -/

namespace CsvCut

/-- The digits of `n`, most significant first, `fuel` digits at most. -/
def decimalLoop : Nat → Nat → Bytes → Bytes
  | 0, _, acc => acc
  | fuel + 1, n, acc =>
    if n < 10 then (48 + n) :: acc
    else decimalLoop fuel (n / 10) ((48 + n % 10) :: acc)

/-- The natural number `n` written in decimal, without sign or leading zeros. -/
def decimal (n : Nat) : Bytes := decimalLoop (n + 1) n []

/-- The four forms of a range token: `N`, `N-`, `-M`, `N-M`. -/
inductive RangeToken where
  | single (n : Nat)
  | openEnd (n : Nat)
  | openStart (m : Nat)
  | closed (n m : Nat)
deriving DecidableEq, Repr

/-- The bound of a token is between 1 and `2^31 - 1`. -/
def inBound (n : Nat) : Prop := 1 ≤ n ∧ n ≤ 2 ^ 31 - 1

instance (n : Nat) : Decidable (inBound n) := by unfold inBound; infer_instance

/-- Every bound of the token is between 1 and `2^31 - 1`. -/
def RangeToken.wellFormed : RangeToken → Prop
  | .single n => inBound n
  | .openEnd n => inBound n
  | .openStart m => inBound m
  | .closed n m => inBound n ∧ inBound m

instance (t : RangeToken) : Decidable t.wellFormed := by
  cases t <;> unfold RangeToken.wellFormed <;> infer_instance

/-- The text of a token. -/
def RangeToken.text : RangeToken → Bytes
  | .single n => decimal n
  | .openEnd n => decimal n ++ [DASH]
  | .openStart m => DASH :: decimal m
  | .closed n m => decimal n ++ DASH :: decimal m

/-- The zero-sentinel encoding of a token. -/
def RangeToken.range : RangeToken → Range
  | .single n => ⟨n, n⟩
  | .openEnd n => ⟨n, 0⟩
  | .openStart m => ⟨0, m⟩
  | .closed n m => ⟨n, m⟩

/-- The field numbers `1..n`, ascending. -/
def fieldNumbers (n : Nat) : List Int := (List.range' 1 n).map Int.ofNat

/-- The pieces whose position, counted from 1, is among `indices`, in the order
of the pieces, each once. -/
def piecesAt (indices : List Int) (pieces : List Bytes) : List Bytes :=
  ((pieces.zip (fieldNumbers pieces.length)).filter (fun x => decide (x.2 ∈ indices))).map
    Prod.fst

end CsvCut

/-! ## Vocabulary of the scanner statements -/

namespace Csv
open CsvCut

/-- The text of a record: its fields joined by the delimiter, then the line end. -/
def recordText (delimiter lineEnd : Bytes) (fields : List Bytes) : Bytes :=
  stringsJoin fields delimiter ++ lineEnd

/-- The text of a sequence of records. -/
def inputText (delimiter lineEnd : Bytes) (records : List (List Bytes)) : Bytes :=
  (records.map (recordText delimiter lineEnd)).flatten

/-- The fields whose column number is selected, in column order; `column` is
the number of the first field of the list. -/
def selectedColumns (p : parameters) : Int → List Bytes → List Bytes
  | _, [] => []
  | column, f :: fs =>
    if isSelected p column then f :: selectedColumns p (column + 1) fs
    else selectedColumns p (column + 1) fs

/-- The expected output for a record: nothing when no column is selected, else
the selected fields joined by the output delimiter, then the line end. -/
def recordOutput (p : parameters) (fields : List Bytes) : Bytes :=
  if selectedColumns p 1 fields = [] then []
  else stringsJoin (selectedColumns p 1 fields) p.outputDelimiter ++ p.lineEnd

/-- The expected output for a sequence of records. -/
def expectedOutput (p : parameters) (records : List (List Bytes)) : Bytes :=
  (records.map (recordOutput p)).flatten

/-- A field without the quote byte and without the last byte of the delimiter
and of the line end. -/
def plainField (delimiterEnd lineEndEnd : Byte) (f : Bytes) : Prop :=
  DQUOTE ∉ f ∧ delimiterEnd ∉ f ∧ lineEndEnd ∉ f

instance (delimiterEnd lineEndEnd : Byte) (f : Bytes) :
    Decidable (plainField delimiterEnd lineEndEnd f) := by
  unfold plainField; infer_instance

/-- A field of the form quote, body, quote, the body free of the quote byte. -/
def quotedField (f : Bytes) : Prop :=
  ∃ body : Bytes, f = DQUOTE :: body ++ [DQUOTE] ∧ DQUOTE ∉ body

/-- A field that the scanner reads as data, starting inside quotes (`esc`) or
outside: no last byte of the delimiter or of the line end stands outside
quotes, and the field ends outside quotes. -/
def literalField (delimiterEnd lineEndEnd : Byte) : Bool → Bytes → Bool
  | esc, [] => !esc
  | esc, c :: cs =>
    if c = DQUOTE then literalField delimiterEnd lineEndEnd (!esc) cs
    else if esc = false ∧ (c = delimiterEnd ∨ c = lineEndEnd) then false
    else literalField delimiterEnd lineEndEnd esc cs

/-- The hypotheses on delimiter and line end: the delimiter is `dInit` followed
by `dEnd`, the line end is LF (`tInit` empty) or CRLF (`tInit` is CR), neither
holds the quote byte, and the last byte of each occurs nowhere else in the two. -/
structure WellFormed (p : parameters) (dInit : Bytes) (dEnd : Byte) (tInit : Bytes)
    (tEnd : Byte) : Prop where
  delimiter : p.inputDelimiter = dInit ++ [dEnd]
  lineEnd : p.lineEnd = tInit ++ [tEnd]
  dInitPlain : plainField dEnd tEnd dInit
  tInitPlain : plainField dEnd tEnd tInit
  dEndQuote : dEnd ≠ DQUOTE
  tEndQuote : tEnd ≠ DQUOTE
  ends : dEnd ≠ tEnd

/-- The selection mask of the first `m` columns. -/
def mask (p : parameters) (m : Nat) : List Bool :=
  (List.range m).map (fun (i : Nat) => isSelected p ((i : Int) + 1))

/-- The bytes that the scanner writes from column `column` to the end of a
record, `fww` telling whether a field of the record was written before. -/
def rowTail (p : parameters) : Bool → Int → List Bytes → Bytes
  | fww, _, [] => if fww = true then p.lineEnd else []
  | fww, column, f :: fs =>
    if isSelected p column = true then
      (if fww = true then p.outputDelimiter else []) ++ f ++ rowTail p true (column + 1) fs
    else rowTail p fww (column + 1) fs

/-- The shape of the records: the first has at least one field, each later one
has at least one field and at most as many as the first. -/
def wellShaped : List (List Bytes) → Prop
  | [] => True
  | first :: later => first ≠ [] ∧ ∀ r ∈ later, r ≠ [] ∧ r.length ≤ first.length

instance : (records : List (List Bytes)) → Decidable (wellShaped records)
  | [] => isTrue trivial
  | first :: later =>
    inferInstanceAs (Decidable (first ≠ [] ∧ ∀ r ∈ later, r ≠ [] ∧ r.length ≤ first.length))

/-- Every entry of the selection mask is what `isSelected` says for its column
(the entry at position `i`, counted from 0, belongs to column `i + 1`). -/
def maskEntries (p : parameters) (selected : List Bool) : Prop :=
  ∀ (i : Nat) (b : Bool), selected.get? i = some b → b = isSelected p ((i : Int) + 1)

/-- The numbers of columns of the records of an input for a one-byte delimiter
and line end LF, read from quoting state `q` and column `k` on; the last entry
is for what follows the last line end. -/
def recordWidths (delimiter : Byte) : Bytes → Bool → Nat → List Nat
  | [], _, k => [k]
  | c :: cs, q, k =>
    if c = DQUOTE then recordWidths delimiter cs (!q) k
    else if q = false ∧ c = delimiter then recordWidths delimiter cs q (k + 1)
    else if q = false ∧ c = LF then k :: recordWidths delimiter cs q 1
    else recordWidths delimiter cs q k

/-- No record is wider than the first one. -/
def noWiderThanFirst : List Nat → Prop
  | [] => True
  | first :: later => ∀ k ∈ later, k ≤ first

instance : (widths : List Nat) → Decidable (noWiderThanFirst widths)
  | [] => isTrue trivial
  | first :: later => inferInstanceAs (Decidable (∀ k ∈ later, k ≤ first))

end Csv

/-! ## Range parsing -/

namespace CsvCut

theorem decimalLoop_digits (fuel n : Nat) (acc : Bytes) (c : Nat)
    (hc : c ∈ decimalLoop fuel n acc) : c ∈ acc ∨ (48 ≤ c ∧ c ≤ 57) := by
  induction fuel generalizing n acc with
  | zero => exact Or.inl (by simpa [decimalLoop] using hc)
  | succ fuel ih =>
    unfold decimalLoop at hc
    split at hc
    · rcases List.mem_cons.1 hc with h | h
      · right; omega
      · exact Or.inl h
    · rcases ih _ _ hc with h | h
      · rcases List.mem_cons.1 h with h | h
        · right; omega
        · exact Or.inl h
      · exact Or.inr h

theorem decimal_digits (n c : Nat) (hc : c ∈ decimal n) : 48 ≤ c ∧ c ≤ 57 := by
  rcases decimalLoop_digits _ _ _ _ hc with h | h
  · simp at h
  · exact h

theorem decimalLoop_ne_nil (fuel n : Nat) (acc : Bytes) :
    decimalLoop (fuel + 1) n acc ≠ [] := by
  induction fuel generalizing n acc with
  | zero => unfold decimalLoop; split <;> simp [decimalLoop]
  | succ fuel ih =>
    unfold decimalLoop
    split
    · simp
    · exact ih _ _

theorem decimal_ne_nil (n : Nat) : decimal n ≠ [] := decimalLoop_ne_nil _ _ _

theorem parseUintLoop_decimalLoop (fuel n : Nat) (acc : Bytes) (hf : n < fuel)
    (hn : n ≤ maxVal32) :
    parseUintLoop (decimalLoop fuel n acc) 0 = parseUintLoop acc n := by
  induction fuel generalizing n acc with
  | zero => omega
  | succ fuel ih =>
    unfold decimalLoop
    split
    · rename_i h10
      have h1 : 48 ≤ 48 + n ∧ 48 + n ≤ 57 := by omega
      have h2 : ¬ (n > maxVal32) := by omega
      have h3 : 0 * 10 + (48 + n - 48) = n := by omega
      simp only [parseUintLoop, h1, h2, h3, and_self, if_true, if_false]
    · rename_i h10
      rw [ih (n / 10) _ (by omega) (by omega)]
      have h1 : 48 ≤ 48 + n % 10 ∧ 48 + n % 10 ≤ 57 := by omega
      have h3 : n / 10 * 10 + (48 + n % 10 - 48) = n := by omega
      have h2 : ¬ (n > maxVal32) := by omega
      simp only [parseUintLoop, h1, h2, h3, and_self, if_true, if_false]

theorem parseInt_decimal (n : Nat) (hn : n ≤ 2 ^ 31 - 1) : parseInt (decimal n) = n := by
  have hne := decimal_ne_nil n
  have hd := decimal_digits n
  have hloop : parseUintLoop (decimal n) 0 = (n, none) := by
    unfold decimal
    rw [parseUintLoop_decimalLoop _ _ _ (by omega) (by unfold maxVal32; omega)]
    rfl
  cases hs : decimal n with
  | nil => exact absurd hs hne
  | cons c cs =>
    have hc := hd c (by rw [hs]; simp)
    have hp : ¬ (c = PLUS ∨ c = DASH) := by unfold PLUS DASH; omega
    have hm : ¬ (c = DASH) := by unfold DASH; omega
    have hp1 : ¬ (c = PLUS) := by unfold PLUS; omega
    rw [hs] at hloop
    have hn2 : ¬ (2147483648 ≤ n) := by omega
    simp [parseInt, strconvParseInt, hp1, hm, parseUint, hloop, hn2]

theorem parseInt_nil : parseInt [] = 0 := rfl

theorem stringsIndex_byte_none (b : Nat) (s : Bytes) (h : b ∉ s) :
    stringsIndex s [b] = none := by
  induction s with
  | nil => simp [stringsIndex]
  | cons c cs ih =>
    have h1 : b ≠ c := fun e => h (by simp [e])
    have h2 : b ∉ cs := fun e => h (by simp [e])
    simp [stringsIndex, List.isPrefixOf, h1, ih h2]

theorem stringsIndex_byte_append (b : Nat) (s t : Bytes) (h : b ∉ s) :
    stringsIndex (s ++ b :: t) [b] = some s.length := by
  induction s with
  | nil => simp [stringsIndex, List.isPrefixOf]
  | cons c cs ih =>
    have h1 : b ≠ c := fun e => h (by simp [e])
    have h2 : b ∉ cs := fun e => h (by simp [e])
    simp [stringsIndex, List.isPrefixOf, h1, ih h2]

theorem splitLoop_stringsJoin (b : Nat) (ts : List Bytes) (hne : ts ≠ [])
    (hfree : ∀ t ∈ ts, b ∉ t) (fuel : Nat) (hfuel : ts.length ≤ fuel + 1) :
    splitLoop fuel (stringsJoin ts [b]) [b] = ts := by
  induction ts generalizing fuel with
  | nil => exact absurd rfl hne
  | cons a rest ih =>
    cases rest with
    | nil =>
      have ha : b ∉ a := hfree a (by simp)
      cases fuel with
      | zero => simp [stringsJoin, splitLoop]
      | succ f => simp [stringsJoin, splitLoop, stringsIndex_byte_none b a ha]
    | cons a2 rest2 =>
      have ha : b ∉ a := hfree a (by simp)
      cases fuel with
      | zero => simp at hfuel
      | succ f =>
        have hrec := ih (by simp) (fun t ht => hfree t (by simp [ht])) f
          (by simp at hfuel ⊢; omega)
        simp only [stringsJoin, splitLoop, List.append_assoc, List.singleton_append,
          stringsIndex_byte_append b a _ ha, List.take_left, List.length_singleton,
          List.drop_left]
        have hd : List.drop (a.length + 1) (a ++ b :: stringsJoin (a2 :: rest2) [b])
            = stringsJoin (a2 :: rest2) [b] := by
          rw [List.drop_append_eq_append_drop]
          simp
        rw [hd, hrec]

theorem stringsJoin_length (ts : List Bytes) (sep : Bytes) (hsep : sep ≠ []) :
    ts.length ≤ (stringsJoin ts sep).length + 1 := by
  induction ts with
  | nil => simp
  | cons a rest ih =>
    cases rest with
    | nil => simp [stringsJoin]
    | cons a2 rest2 =>
      have : 0 < sep.length := List.length_pos.2 hsep
      simp only [stringsJoin, List.length_append, List.length_cons] at ih ⊢
      omega

theorem RangeToken.text_no_comma (t : RangeToken) : COMMA ∉ t.text := by
  intro h
  have hd := fun n h => decimal_digits n COMMA h
  cases t <;> simp only [RangeToken.text, List.mem_append, List.mem_cons, List.mem_singleton,
    List.not_mem_nil, or_false] at h
  · exact absurd (hd _ h) (by unfold COMMA; omega)
  · rcases h with h | h
    · exact absurd (hd _ h) (by unfold COMMA; omega)
    · exact absurd h (by decide)
  · rcases h with h | h
    · exact absurd h (by decide)
    · exact absurd (hd _ h) (by unfold COMMA; omega)
  · rcases h with h | h | h
    · exact absurd (hd _ h) (by unfold COMMA; omega)
    · exact absurd h (by decide)
    · exact absurd (hd _ h) (by unfold COMMA; omega)

theorem RangeToken.text_ne_nil (t : RangeToken) : t.text ≠ [] := by
  cases t <;> simp [RangeToken.text, decimal_ne_nil]

theorem decimal_no_dash (n : Nat) : DASH ∉ decimal n := fun h =>
  absurd (decimal_digits n DASH h) (by unfold DASH; omega)

theorem parseRange_text (t : RangeToken) (h : t.wellFormed) :
    parseRange t.text = t.range := by
  cases t with
  | single n =>
    have hb : n ≤ 2 ^ 31 - 1 := h.2
    simp [RangeToken.text, RangeToken.range, parseRange, NewRange,
      stringsIndex_byte_none DASH _ (decimal_no_dash n), parseInt_decimal n hb]
  | openEnd n =>
    have hb : n ≤ 2 ^ 31 - 1 := h.2
    simp [RangeToken.text, RangeToken.range, parseRange, NewRange,
      stringsIndex_byte_append DASH _ [] (decimal_no_dash n), parseInt_decimal n hb,
      parseInt_nil]
  | openStart m =>
    have hb : m ≤ 2 ^ 31 - 1 := h.2
    have hi := stringsIndex_byte_append DASH [] (decimal m) (by simp)
    simp only [List.nil_append, List.length_nil] at hi
    simp [RangeToken.text, RangeToken.range, parseRange, NewRange, hi,
      parseInt_decimal m hb, parseInt_nil]
  | closed n m =>
    have hb : n ≤ 2 ^ 31 - 1 := h.1.2
    have hb2 : m ≤ 2 ^ 31 - 1 := h.2.2
    have hd : List.drop ((decimal n).length + 1) (decimal n ++ DASH :: decimal m)
        = decimal m := by
      rw [List.drop_append_eq_append_drop]
      simp
    simp [RangeToken.text, RangeToken.range, parseRange, NewRange,
      stringsIndex_byte_append DASH _ (decimal m) (decimal_no_dash n), parseInt_decimal n hb,
      parseInt_decimal m hb2, hd]

theorem parseRanges_tokens (ts : List RangeToken) (h : ∀ t ∈ ts, t.wellFormed) :
    parseRanges (stringsJoin (ts.map RangeToken.text) [COMMA]) = ts.map RangeToken.range := by
  cases ts with
  | nil => rfl
  | cons t rest =>
    have hne : stringsJoin ((t :: rest).map RangeToken.text) [COMMA] ≠ [] := by
      cases rest with
      | nil => simpa [stringsJoin] using t.text_ne_nil
      | cons t2 rest2 => simp [stringsJoin, t.text_ne_nil]
    have hlen : ¬ (stringsJoin ((t :: rest).map RangeToken.text) [COMMA]).length = 0 := by
      simpa using hne
    have hsplit : stringsSplit (stringsJoin ((t :: rest).map RangeToken.text) [COMMA]) [COMMA]
        = (t :: rest).map RangeToken.text := by
      unfold stringsSplit
      rw [if_neg (by simp)]
      apply splitLoop_stringsJoin
      · simp
      · intro x hx
        rcases List.mem_map.1 hx with ⟨u, _, rfl⟩
        exact u.text_no_comma
      · exact stringsJoin_length _ _ (by simp)
    unfold parseRanges
    rw [if_neg hlen, hsplit, List.map_map]
    apply List.map_congr_left
    intro u hu
    exact parseRange_text u (h u hu)

/-- C1: `parseRanges` yields the zero-sentinel encoding. The empty text gives
no range; for bounds `N`, `M` between 1 and `2^31 - 1` written in decimal the
texts `N`, `N-`, `-M`, `N-M` give the single ranges `(N,N)`, `(N,0)`, `(0,M)`,
`(N,M)`; and a comma-separated list of such tokens gives the tokens' ranges,
one per token, in the same order. -/
theorem parseRanges_zero_sentinel :
    parseRanges [] = [] ∧
    (∀ N M : Nat, inBound N → inBound M →
      parseRanges (decimal N) = [⟨N, N⟩] ∧
      parseRanges (decimal N ++ [DASH]) = [⟨N, 0⟩] ∧
      parseRanges (DASH :: decimal M) = [⟨0, M⟩] ∧
      parseRanges (decimal N ++ DASH :: decimal M) = [⟨N, M⟩]) ∧
    (∀ ts : List RangeToken, (∀ t ∈ ts, t.wellFormed) →
      parseRanges (stringsJoin (ts.map RangeToken.text) [COMMA])
        = ts.map RangeToken.range) := by
  refine ⟨rfl, ?_, parseRanges_tokens⟩
  intro N M hN hM
  refine ⟨?_, ?_, ?_, ?_⟩
  · exact parseRanges_tokens [.single N] (by simpa [RangeToken.wellFormed] using hN)
  · exact parseRanges_tokens [.openEnd N] (by simpa [RangeToken.wellFormed] using hN)
  · exact parseRanges_tokens [.openStart M] (by simpa [RangeToken.wellFormed] using hM)
  · exact parseRanges_tokens [.closed N M] (by simpa [RangeToken.wellFormed] using ⟨hN, hM⟩)

/-- Witness of C1 at the text `1-3,-5,23,42-`. -/
theorem parseRanges_zero_sentinel_witness :
    (∀ t ∈ [RangeToken.closed 1 3, .openStart 5, .single 23, .openEnd 42], t.wellFormed) ∧
    stringsJoin ([RangeToken.closed 1 3, .openStart 5, .single 23, .openEnd 42].map
      RangeToken.text) [COMMA] = ascii "1-3,-5,23,42-" ∧
    parseRanges (stringsJoin ([RangeToken.closed 1 3, .openStart 5, .single 23,
      .openEnd 42].map RangeToken.text) [COMMA])
      = [⟨1, 3⟩, ⟨0, 5⟩, ⟨23, 23⟩, ⟨42, 0⟩] :=
  ⟨by decide, by decide, parseRanges_zero_sentinel.2.2 _ (by decide)⟩

end CsvCut

/-! ## Range membership and selection -/

namespace CsvCut

/-- C2: `Range.Contains` follows the zero-sentinel semantics. For a range whose
bounds are not both zero and every integer `n`: with `start = 0` it holds iff
`n ≤ end`; with `end = 0` it holds iff `start ≤ n`; with both bounds nonzero it
holds iff `start ≤ n ≤ end`. -/
theorem Contains_zero_sentinel (r : Range) (n : Int) (h : ¬ (r.start = 0 ∧ r.end = 0)) :
    (r.start = 0 → (r.Contains n = true ↔ n ≤ r.end)) ∧
    (r.end = 0 → (r.Contains n = true ↔ r.start ≤ n)) ∧
    (r.start ≠ 0 → r.end ≠ 0 → (r.Contains n = true ↔ r.start ≤ n ∧ n ≤ r.end)) := by
  refine ⟨?_, ?_, ?_⟩
  · intro h0
    have he : r.end ≠ 0 := fun e => h ⟨h0, e⟩
    simp only [Range.Contains, h0, he, true_and, false_and, if_false]
    constructor
    · intro hc
      split at hc
      · assumption
      · split at hc
        · omega
        · exact absurd hc (by simp)
    · intro hle
      simp [hle]
  · intro h0
    have hs : r.start ≠ 0 := fun e => h ⟨e, h0⟩
    simp only [Range.Contains, h0, hs, true_and, false_and, if_false]
    constructor
    · intro hc
      split at hc
      · assumption
      · split at hc
        · omega
        · exact absurd hc (by simp)
    · intro hle
      simp [hle]
  · intro hs he
    simp [Range.Contains, hs, he]

/-- Witness of C2 at the range `(0, 5)` and the number 3. -/
theorem Contains_zero_sentinel_witness :
    ¬ ((⟨0, 5⟩ : Range).start = 0 ∧ (⟨0, 5⟩ : Range).end = 0) ∧
    ((⟨0, 5⟩ : Range).Contains 3 = true ↔ (3 : Int) ≤ 5) :=
  ⟨by decide, (Contains_zero_sentinel ⟨0, 5⟩ 3 (by decide)).1 rfl⟩

theorem parseInt_no_digit (raw : Bytes) (h : ∀ c ∈ raw, ¬ (48 ≤ c ∧ c ≤ 57)) :
    parseInt raw = 0 := by
  cases raw with
  | nil => rfl
  | cons c cs =>
    have hu : ∀ body : Bytes, (∀ x ∈ body, ¬ (48 ≤ x ∧ x ≤ 57)) →
        parseUint body = (0, some .errSyntax) := by
      intro body hb
      cases body with
      | nil => rfl
      | cons x xs =>
        have hx := hb x (by simp)
        simp [parseUint, parseUintLoop, hx]
    have hbody : parseUint (if c = PLUS ∨ c = DASH then cs else c :: cs)
        = (0, some .errSyntax) := by
      apply hu
      intro x hx
      split at hx
      · exact h x (by simp [hx])
      · exact h x hx
    simp only [parseInt, strconvParseInt, hbody]

theorem parseRange_no_digit (raw : Bytes) (h : ∀ c ∈ raw, ¬ (48 ≤ c ∧ c ≤ 57)) :
    parseRange raw = ⟨0, 0⟩ := by
  unfold parseRange
  split
  · simp [NewRange, parseInt_no_digit raw h]
  · rename_i m _
    have h1 := parseInt_no_digit (raw.take m) (fun c hc => h c (List.mem_of_mem_take hc))
    have h2 := parseInt_no_digit (raw.drop (m + 1)) (fun c hc => h c (List.mem_of_mem_drop hc))
    simp [NewRange, h1, h2]

/-- C3, counterexample: `parseRange` returns `(0, 0)` for `-`, and that range
contains the field number 1. -/
theorem Contains_degenerate_counterexample :
    parseRange [DASH] = ⟨0, 0⟩ ∧ ¬ ((⟨0, 0⟩ : Range).Contains 1 = false) := by
  decide

/-- C3, amended: the degenerate range `(0, 0)`, which is what `parseRange`
returns for `-` and for every token without a digit, is open at both ends: it
contains every integer, so every field number `n ≥ 1`. -/
theorem Contains_degenerate_all :
    (∀ n : Int, (⟨0, 0⟩ : Range).Contains n = true) ∧
    parseRange [DASH] = ⟨0, 0⟩ ∧
    (∀ raw : Bytes, (∀ c ∈ raw, ¬ (48 ≤ c ∧ c ≤ 57)) → parseRange raw = ⟨0, 0⟩) := by
  refine ⟨?_, by decide, parseRange_no_digit⟩
  intro n
  simp only [Range.Contains, true_and]
  by_cases h : n ≤ 0
  · rw [if_pos h]
  · rw [if_neg h, if_pos (by omega)]

/-- Witness of C3 (amended) at the token `abc` and the field number 1. -/
theorem Contains_degenerate_all_witness :
    (∀ c ∈ ascii "abc", ¬ (48 ≤ c ∧ c ≤ 57)) ∧ parseRange (ascii "abc") = ⟨0, 0⟩ ∧
    (⟨0, 0⟩ : Range).Contains 1 = true :=
  ⟨by decide, Contains_degenerate_all.2.2 (ascii "abc") (by decide),
    Contains_degenerate_all.1 1⟩

end CsvCut

namespace Csv
open CsvCut

theorem isSelectedLoop_false (field : Int) (ranges : List Range) :
    isSelectedLoop false field ranges = true ↔ ∃ r ∈ ranges, r.Contains field = true := by
  induction ranges with
  | nil => simp [isSelectedLoop]
  | cons a rest ih =>
    cases hc : a.Contains field <;> simp [isSelectedLoop, hc, ih]

theorem isSelectedLoop_true (field : Int) (ranges : List Range) :
    isSelectedLoop true field ranges = true ↔ ∃ r ∈ ranges, r.Contains field = false := by
  induction ranges with
  | nil => simp [isSelectedLoop]
  | cons a rest ih =>
    cases hc : a.Contains field <;> simp [isSelectedLoop, hc, ih]

/-- C4: `isSelected` is true for an empty range list; otherwise without
complement it is true iff some range contains the field, and with complement it
is true iff some range does not contain the field. -/
theorem isSelected_characterised (p : parameters) (field : Int) :
    (p.ranges = [] → isSelected p field = true) ∧
    (p.ranges ≠ [] → p.complement = false →
      (isSelected p field = true ↔ ∃ r ∈ p.ranges, r.Contains field = true)) ∧
    (p.ranges ≠ [] → p.complement = true →
      (isSelected p field = true ↔ ∃ r ∈ p.ranges, r.Contains field = false)) := by
  refine ⟨?_, ?_, ?_⟩
  · intro h
    simp [isSelected, h]
  · intro hne hc
    have hl : ¬ p.ranges.length = 0 := by simpa using hne
    rw [isSelected, if_neg hl, hc]
    exact isSelectedLoop_false field p.ranges
  · intro hne hc
    have hl : ¬ p.ranges.length = 0 := by simpa using hne
    rw [isSelected, if_neg hl, hc]
    exact isSelectedLoop_true field p.ranges

/-- Witness of C4 at the ranges `1-3,5` without complement and field 5. -/
theorem isSelected_characterised_witness :
    isSelected ⟨[⟨1, 3⟩, ⟨5, 5⟩], [COMMA], [COMMA], false, [LF]⟩ 5 = true ↔
      ∃ r ∈ [(⟨1, 3⟩ : Range), ⟨5, 5⟩], r.Contains 5 = true :=
  (isSelected_characterised ⟨[⟨1, 3⟩, ⟨5, 5⟩], [COMMA], [COMMA], false, [LF]⟩ 5).2.1
    (by decide) rfl

/-- C5, the code at the failing input: with the two disjoint ranges `1,3`,
field 1 is selected without complement and also with complement; of the columns
`1..3` the ranges select 1 and 3, and with complement all three, not column 2
alone. -/
theorem isSelected_complement_two_ranges :
    isSelected ⟨parseRanges (ascii "1,3"), [COMMA], [COMMA], false, [LF]⟩ 1 = true ∧
    isSelected ⟨parseRanges (ascii "1,3"), [COMMA], [COMMA], true, [LF]⟩ 1 = true ∧
    (fieldNumbers 3).filter
        (isSelected ⟨parseRanges (ascii "1,3"), [COMMA], [COMMA], false, [LF]⟩) = [1, 3] ∧
    (fieldNumbers 3).filter
        (isSelected ⟨parseRanges (ascii "1,3"), [COMMA], [COMMA], true, [LF]⟩) = [1, 2, 3] := by
  decide

end Csv

namespace Cut
open CsvCut

theorem selectedFieldsOuter_eq (p : parameters) (todo k : Nat) (selected : List Int) :
    selectedFieldsOuter p todo (k : Int) selected
      = selected ++ ((List.range' k todo).map Int.ofNat).filter
          (fun f => selectedFieldsInner p.complement f p.ranges) := by
  induction todo generalizing k selected with
  | zero => simp [selectedFieldsOuter]
  | succ todo ih =>
    have hk : ((k : Int) + 1) = ((k + 1 : Nat) : Int) := by push_cast; rfl
    unfold selectedFieldsOuter
    rw [hk]
    split
    · rename_i hsel
      rw [ih]
      simp [List.range'_succ, List.filter_cons, hsel]
    · rename_i hsel
      rw [ih]
      simp [List.range'_succ, List.filter_cons, hsel]

theorem selectedFields_eq_filter (p : parameters) (total : Nat) :
    selectedFields p total
      = (fieldNumbers total).filter (fun f => selectedFieldsInner p.complement f p.ranges) := by
  have h := selectedFieldsOuter_eq p total 1 []
  simpa [selectedFields, fieldNumbers] using h

/-- C6: for a single range and every total `N`, `selectedFields` with
complement returns, in ascending order, exactly the indices in `1..N` that
`selectedFields` without complement does not return; the range `-2` with
complement on three fields selects field 3 only. -/
theorem selectedFields_complement_single (p : parameters) (r : Range) (N : Nat) :
    selectedFields { p with ranges := [r], complement := true } N
      = (fieldNumbers N).filter
          (fun f => decide (f ∉ selectedFields { p with ranges := [r], complement := false } N))
    ∧ selectedFields { p with ranges := parseRanges (ascii "-2"), complement := true } 3 = [3] := by
  refine ⟨?_, ?_⟩
  swap
  · rw [selectedFields_eq_filter]
    show List.filter (fun f => selectedFieldsInner true f (parseRanges (ascii "-2")))
      (fieldNumbers 3) = [3]
    decide
  rw [selectedFields_eq_filter, selectedFields_eq_filter]
  apply List.filter_congr
  intro f hf
  cases hc : r.Contains f <;> simp [selectedFieldsInner, hc, List.mem_filter, hf]

end Cut

/-! ## The quoted-record scanner on well-formed records -/

namespace Csv
open CsvCut

theorem steps_literal (p : parameters) (dEnd tEnd : Byte) (f rest : Bytes) :
    ∀ (w : Bytes) (sel : List Bool) (esc hdr fww : Bool) (wc : Int) (out : Bytes),
      literalField dEnd tEnd esc f = true →
      steps p dEnd tEnd ⟨w, sel, esc, hdr, fww, wc, out⟩ (f ++ rest)
        = steps p dEnd tEnd ⟨w ++ f, sel, false, hdr, fww, wc, out⟩ rest := by
  induction f with
  | nil =>
    intro w sel esc hdr fww wc out h
    cases esc <;> simp_all [literalField]
  | cons c cs ih =>
    intro w sel esc hdr fww wc out h
    unfold literalField at h
    by_cases hq : c = DQUOTE
    · rw [if_pos hq] at h
      have := ih (w ++ [c]) sel (!esc) hdr fww wc out h
      cases esc <;> simp_all [steps, step]
    · rw [if_neg hq] at h
      cases esc
      · by_cases he : c = dEnd ∨ c = tEnd
        · simp [he] at h
        · simp only [he, and_false, if_false] at h
          have := ih (w ++ [c]) sel false hdr fww wc out h
          have h1 : ¬ c = dEnd := fun e => he (Or.inl e)
          have h2 : ¬ c = tEnd := fun e => he (Or.inr e)
          simp_all [steps, step]
      · simp only [Bool.true_eq_false, false_and, if_false] at h
        have := ih (w ++ [c]) sel true hdr fww wc out h
        simp_all [steps, step]

theorem literalField_of_plain (dEnd tEnd : Byte) (f : Bytes) (h : plainField dEnd tEnd f) :
    literalField dEnd tEnd false f = true := by
  induction f with
  | nil => rfl
  | cons c cs ih =>
    obtain ⟨hq, hd, ht⟩ := h
    have h1 : ¬ c = DQUOTE := fun e => hq (by simp [e])
    have h2 : ¬ c = dEnd := fun e => hd (by simp [e])
    have h3 : ¬ c = tEnd := fun e => ht (by simp [e])
    have hrec := ih ⟨fun e => hq (by simp [e]), fun e => hd (by simp [e]),
      fun e => ht (by simp [e])⟩
    simp [literalField, h1, h2, h3, hrec]

theorem literalField_quoted_body (dEnd tEnd : Byte) (body : Bytes) (h : DQUOTE ∉ body) :
    literalField dEnd tEnd true (body ++ [DQUOTE]) = true := by
  induction body with
  | nil => simp [literalField]
  | cons c cs ih =>
    have h1 : ¬ c = DQUOTE := fun e => h (by simp [e])
    have hrec := ih (fun e => h (by simp [e]))
    simp [literalField, h1, hrec]

theorem literalField_of_quoted (dEnd tEnd : Byte) (f : Bytes) (h : quotedField f) :
    literalField dEnd tEnd false f = true := by
  obtain ⟨body, rfl, hb⟩ := h
  have := literalField_quoted_body dEnd tEnd body hb
  simpa [literalField] using this

theorem mask_length (p : parameters) (m : Nat) : (mask p m).length = m := by
  simp [mask]

theorem mask_succ (p : parameters) (m : Nat) :
    mask p m ++ [isSelected p ((m : Int) + 1)] = mask p (m + 1) := by
  simp [mask, List.range_succ]

theorem mask_get? (p : parameters) (m j : Nat) (h : j < m) :
    (mask p m).get? j = some (isSelected p ((j : Int) + 1)) := by
  simp [mask, List.getElem?_range, h]

theorem writeOut_mask (p : parameters) (w : Bytes) (m j : Nat) (hdr fww eol : Bool)
    (out : Bytes) (hh : hdr = true → m = j) (hn : hdr = false → j < m) :
    writeOut p ⟨w, mask p m, false, hdr, fww, (j : Int) + 1, out⟩ eol
      = some ⟨[], mask p (if hdr = true then j + 1 else m), false, hdr,
          fww || isSelected p ((j : Int) + 1), (j : Int) + 1,
          if isSelected p ((j : Int) + 1) = true then
            (if fww = true then out ++ p.outputDelimiter else out) ++ w
          else out⟩ := by
  have hi : ¬ ((j : Int) + 1 - 1 < 0) := by omega
  have hnat : ((j : Int) + 1 - 1).toNat = j := by simp
  cases hdr with
  | true =>
    have hm : m = j := hh rfl
    subst hm
    have hg := mask_get? p (m + 1) m (by omega)
    simp only [writeOut, if_true, mask_succ, hi, if_false, hnat, hg]
    cases hs : isSelected p ((m : Int) + 1) <;> cases fww <;> simp
  | false =>
    have hg := mask_get? p m j (hn rfl)
    simp only [writeOut, Bool.false_eq_true, if_false, hi, hnat, hg]
    cases hs : isSelected p ((j : Int) + 1) <;> cases fww <;> simp

theorem tail?_append (w sep : Bytes) : tail? (w ++ sep) sep = some sep := by
  simp [tail?]

theorem take_append_sub (w sep : Bytes) :
    (w ++ sep).take ((w ++ sep).length - sep.length) = w := by
  simp

theorem steps_delimiter (p : parameters) (dInit : Bytes) (dEnd : Byte) (tInit : Bytes)
    (tEnd : Byte) (wf : WellFormed p dInit dEnd tInit tEnd) (w rest : Bytes) (m j : Nat)
    (hdr fww : Bool) (out : Bytes) (hh : hdr = true → m = j) (hn : hdr = false → j < m) :
    steps p dEnd tEnd ⟨w, mask p m, false, hdr, fww, (j : Int) + 1, out⟩
        (p.inputDelimiter ++ rest)
      = steps p dEnd tEnd ⟨[], mask p (if hdr = true then j + 1 else m), false, hdr,
          fww || isSelected p ((j : Int) + 1), (j : Int) + 1 + 1,
          if isSelected p ((j : Int) + 1) = true then
            (if fww = true then out ++ p.outputDelimiter else out) ++ w
          else out⟩ rest := by
  have hlit := literalField_of_plain dEnd tEnd dInit wf.dInitPlain
  have hsplit : p.inputDelimiter ++ rest = dInit ++ (dEnd :: rest) := by
    rw [wf.delimiter]; simp
  rw [hsplit, steps_literal p dEnd tEnd dInit _ _ _ _ _ _ _ _ hlit]
  have ht : tail? (w ++ dInit ++ [dEnd]) p.inputDelimiter = some p.inputDelimiter := by
    rw [wf.delimiter, List.append_assoc]; exact tail?_append _ _
  have hk : (w ++ dInit ++ [dEnd]).take ((w ++ dInit ++ [dEnd]).length
      - p.inputDelimiter.length) = w := by
    rw [wf.delimiter, List.append_assoc]; exact take_append_sub _ _
  have hw := writeOut_mask p w m j hdr fww false out hh hn
  simp only [steps, step, wf.dEndQuote, and_false, if_false, true_and, if_true, ht, hk, hw]

theorem steps_lineEnd (p : parameters) (dInit : Bytes) (dEnd : Byte) (tInit : Bytes)
    (tEnd : Byte) (wf : WellFormed p dInit dEnd tInit tEnd) (w rest : Bytes) (m j : Nat)
    (hdr fww : Bool) (out : Bytes) (hh : hdr = true → m = j) (hn : hdr = false → j < m) :
    steps p dEnd tEnd ⟨w, mask p m, false, hdr, fww, (j : Int) + 1, out⟩
        (p.lineEnd ++ rest)
      = steps p dEnd tEnd ⟨[], mask p (if hdr = true then j + 1 else m), false, false,
          false, 1,
          if isSelected p ((j : Int) + 1) = true then
            (if fww = true then out ++ p.outputDelimiter else out) ++ w ++ p.lineEnd
          else if fww = true then out ++ p.lineEnd else out⟩ rest := by
  have hlit := literalField_of_plain dEnd tEnd tInit wf.tInitPlain
  have hsplit : p.lineEnd ++ rest = tInit ++ (tEnd :: rest) := by
    rw [wf.lineEnd]; simp
  rw [hsplit, steps_literal p dEnd tEnd tInit _ _ _ _ _ _ _ _ hlit]
  have ht : tail? (w ++ tInit ++ [tEnd]) p.lineEnd = some p.lineEnd := by
    rw [wf.lineEnd, List.append_assoc]; exact tail?_append _ _
  have hk : (w ++ tInit ++ [tEnd]).take ((w ++ tInit ++ [tEnd]).length
      - p.lineEnd.length) = w := by
    rw [wf.lineEnd, List.append_assoc]; exact take_append_sub _ _
  have hw := writeOut_mask p w m j hdr fww true out hh hn
  have hne : ¬ tEnd = dEnd := fun e => wf.ends e.symm
  simp only [steps, step, wf.tEndQuote, hne, and_false, if_false, true_and, if_true, ht, hk, hw]
  cases hs : isSelected p ((j : Int) + 1) <;> cases fww <;> simp

theorem rowTail_eq (p : parameters) (fs : List Bytes) :
    ∀ (fww : Bool) (column : Int),
      rowTail p fww column fs
        = if selectedColumns p column fs = [] then (if fww = true then p.lineEnd else [])
          else (if fww = true then p.outputDelimiter else [])
            ++ stringsJoin (selectedColumns p column fs) p.outputDelimiter ++ p.lineEnd := by
  induction fs with
  | nil => intro fww column; simp [rowTail, selectedColumns]
  | cons f fs ih =>
    intro fww column
    unfold rowTail selectedColumns
    cases hs : isSelected p column
    · simp only [Bool.false_eq_true, if_false]
      exact ih fww (column + 1)
    · simp only [if_true, ih true (column + 1)]
      cases hsel : selectedColumns p (column + 1) fs with
      | nil => simp [stringsJoin]
      | cons g gs => simp [stringsJoin]

theorem rowTail_recordOutput (p : parameters) (fs : List Bytes) :
    rowTail p false 1 fs = recordOutput p fs := by
  rw [rowTail_eq, recordOutput]
  simp

theorem steps_fields (p : parameters) (dInit : Bytes) (dEnd : Byte) (tInit : Bytes)
    (tEnd : Byte) (wf : WellFormed p dInit dEnd tInit tEnd) (rest : Bytes) (fs : List Bytes) :
    ∀ (f : Bytes) (m j : Nat) (hdr fww : Bool) (out : Bytes),
      (∀ g ∈ f :: fs, literalField dEnd tEnd false g = true) →
      (hdr = true → m = j) → (hdr = false → j + fs.length < m) →
      steps p dEnd tEnd ⟨[], mask p m, false, hdr, fww, (j : Int) + 1, out⟩
          (recordText p.inputDelimiter p.lineEnd (f :: fs) ++ rest)
        = steps p dEnd tEnd ⟨[], mask p (if hdr = true then j + fs.length + 1 else m), false,
            false, false, 1, out ++ rowTail p fww ((j : Int) + 1) (f :: fs)⟩ rest := by
  induction fs with
  | nil =>
    intro f m j hdr fww out hlit hh hn
    have hf := hlit f (by simp)
    simp only [recordText, stringsJoin, List.append_assoc]
    rw [steps_literal p dEnd tEnd f _ _ _ _ _ _ _ _ hf]
    rw [List.nil_append, steps_lineEnd p dInit dEnd tInit tEnd wf f rest m j hdr fww out hh
      (fun h => by have := hn h; simp at this; omega)]
    congr 2
    cases hs : isSelected p ((j : Int) + 1) <;> cases fww <;> simp [rowTail, hs]
  | cons g gs ih =>
    intro f m j hdr fww out hlit hh hn
    have hf := hlit f (by simp)
    have hrec := ih g (if hdr = true then j + 1 else m) (j + 1) hdr
      (fww || isSelected p ((j : Int) + 1))
      (if isSelected p ((j : Int) + 1) = true then
        (if fww = true then out ++ p.outputDelimiter else out) ++ f else out)
      (fun x hx => hlit x (by simp [List.mem_cons] at hx ⊢; tauto))
      (fun h => by simp [h])
      (fun h => by have := hn h; simp [h] at this ⊢; omega)
    have htext : recordText p.inputDelimiter p.lineEnd (f :: g :: gs) ++ rest
        = f ++ (p.inputDelimiter
            ++ (recordText p.inputDelimiter p.lineEnd (g :: gs) ++ rest)) := by
      simp [recordText, stringsJoin]
    rw [htext, steps_literal p dEnd tEnd f _ _ _ _ _ _ _ _ hf, List.nil_append,
      steps_delimiter p dInit dEnd tInit tEnd wf f _ m j hdr fww out hh
        (fun h => by have := hn h; simp at this; omega)]
    have hcast : ((j + 1 : Nat) : Int) = (j : Int) + 1 := by push_cast; rfl
    rw [hcast] at hrec
    rw [hrec]
    congr 2
    · cases hdr
      · simp
      · simp only [if_true, List.length_cons]
        congr 1
        omega
    · cases hs : isSelected p ((j : Int) + 1) <;> cases fww <;> simp [rowTail, hs]

theorem steps_records (p : parameters) (dInit : Bytes) (dEnd : Byte) (tInit : Bytes)
    (tEnd : Byte) (wf : WellFormed p dInit dEnd tInit tEnd) (rest : Bytes) (m : Nat)
    (records : List (List Bytes)) :
    ∀ (out : Bytes),
      (∀ r ∈ records, r ≠ [] ∧ r.length ≤ m) →
      (∀ r ∈ records, ∀ f ∈ r, literalField dEnd tEnd false f = true) →
      steps p dEnd tEnd ⟨[], mask p m, false, false, false, 1, out⟩
          (inputText p.inputDelimiter p.lineEnd records ++ rest)
        = steps p dEnd tEnd ⟨[], mask p m, false, false, false, 1,
            out ++ expectedOutput p records⟩ rest := by
  induction records with
  | nil => intro out _ _; simp [inputText, expectedOutput]
  | cons r rs ih =>
    intro out hshape hlit
    obtain ⟨hne, hlen⟩ := hshape r (by simp)
    cases r with
    | nil => exact absurd rfl hne
    | cons f fs =>
      have hrow := steps_fields p dInit dEnd tInit tEnd wf
        (inputText p.inputDelimiter p.lineEnd rs ++ rest) fs f m 0 false false out
        (hlit (f :: fs) (by simp)) (by simp)
        (fun _ => by simp at hlen ⊢; omega)
      have htext : inputText p.inputDelimiter p.lineEnd ((f :: fs) :: rs) ++ rest
          = recordText p.inputDelimiter p.lineEnd (f :: fs)
            ++ (inputText p.inputDelimiter p.lineEnd rs ++ rest) := by
        simp [inputText]
      have h01 : ((0 : Nat) : Int) + 1 = 1 := by simp
      rw [h01] at hrow
      rw [htext, hrow]
      simp only [Bool.false_eq_true, if_false]
      rw [ih _ (fun x hx => hshape x (by simp [hx])) (fun x hx => hlit x (by simp [hx]))]
      simp [expectedOutput, rowTail_recordOutput]

theorem cutFile_records (p : parameters) (dInit : Bytes) (dEnd : Byte) (tInit : Bytes)
    (tEnd : Byte) (wf : WellFormed p dInit dEnd tInit tEnd) (records : List (List Bytes))
    (hshape : wellShaped records)
    (hlit : ∀ r ∈ records, ∀ f ∈ r, literalField dEnd tEnd false f = true) :
    cutFile (inputText p.inputDelimiter p.lineEnd records) p
      = some (expectedOutput p records) := by
  have hd : p.inputDelimiter.getLast? = some dEnd := by rw [wf.delimiter]; simp
  have ht : p.lineEnd.getLast? = some tEnd := by rw [wf.lineEnd]; simp
  unfold cutFile
  rw [hd, ht]
  cases records with
  | nil => simp [inputText, expectedOutput, steps, finish, State.init]
  | cons r rs =>
    obtain ⟨hne, hlater⟩ := hshape
    cases r with
    | nil => exact absurd rfl hne
    | cons f fs =>
      have hrow := steps_fields p dInit dEnd tInit tEnd wf
        (inputText p.inputDelimiter p.lineEnd rs ++ []) fs f 0 0 true false []
        (hlit (f :: fs) (by simp)) (by simp) (by simp)
      have htext : inputText p.inputDelimiter p.lineEnd ((f :: fs) :: rs)
          = recordText p.inputDelimiter p.lineEnd (f :: fs)
            ++ (inputText p.inputDelimiter p.lineEnd rs ++ []) := by
        simp [inputText]
      have h01 : ((0 : Nat) : Int) + 1 = 1 := by simp
      rw [h01] at hrow
      have hrest := steps_records p dInit dEnd tInit tEnd wf [] (fs.length + 1) rs
        ([] ++ rowTail p false 1 (f :: fs))
        (fun x hx => by simpa using hlater x hx)
        (fun x hx => hlit x (by simp [hx]))
      simp only [if_true, Nat.zero_add] at hrow
      have hmask : mask p 0 = [] := rfl
      rw [hmask] at hrow
      simp only [State.init]
      rw [htext, hrow, hrest]
      simp [steps, finish, expectedOutput, rowTail_recordOutput]

theorem wellFormed_of_hypotheses (p : parameters) (dInit : Bytes) (dEnd : Byte)
    (hD : p.inputDelimiter = dInit ++ [dEnd])
    (hT : p.lineEnd = [LF] ∨ p.lineEnd = [CR, LF])
    (hquote : DQUOTE ∉ p.inputDelimiter) (hdInit : dEnd ∉ dInit) (hdT : dEnd ∉ p.lineEnd)
    (htD : LF ∉ p.inputDelimiter) :
    ∃ tInit, WellFormed p dInit dEnd tInit LF := by
  rw [hD] at hquote htD
  simp only [List.mem_append, List.mem_singleton, not_or] at hquote htD
  have hq : dEnd ≠ DQUOTE := fun e => hquote.2 e.symm
  rcases hT with hT | hT
  · refine ⟨[], hD, by simp [hT], ⟨hquote.1, hdInit, htD.1⟩, ⟨by simp, by simp, by simp⟩, hq,
      by decide, ?_⟩
    intro e; apply hdT; rw [hT, e]; simp
  · refine ⟨[CR], hD, by simp [hT], ⟨hquote.1, hdInit, htD.1⟩, ⟨by decide, ?_, by decide⟩, hq,
      by decide, ?_⟩
    · intro e
      apply hdT; rw [hT]
      simp only [List.mem_singleton] at e
      simp [e]
    · intro e; apply hdT; rw [hT, e]; simp

/-- C7: for a non-empty delimiter and a line end LF or CRLF that hold no quote
byte and whose last bytes occur nowhere else in the two, and for records of
quote-free fields without these last bytes, the first record with at least one
field and no later record longer, `cutFile` writes for each record the fields
of the selected columns in column order, joined by the output delimiter and
followed by the line end, and nothing for a record without a selected column.
With the three-byte delimiter `€`, column 2 of `a€b€c` is `b`. -/
theorem cutFile_selects_and_joins (p : parameters) (dInit : Bytes) (dEnd : Byte)
    (hD : p.inputDelimiter = dInit ++ [dEnd])
    (hT : p.lineEnd = [LF] ∨ p.lineEnd = [CR, LF])
    (hquote : DQUOTE ∉ p.inputDelimiter) (hdInit : dEnd ∉ dInit) (hdT : dEnd ∉ p.lineEnd)
    (htD : LF ∉ p.inputDelimiter) (records : List (List Bytes))
    (hshape : wellShaped records)
    (hplain : ∀ r ∈ records, ∀ f ∈ r, plainField dEnd LF f) :
    cutFile (inputText p.inputDelimiter p.lineEnd records) p
        = some (expectedOutput p records) ∧
    cutFile [0x61, 0xE2, 0x82, 0xAC, 0x62, 0xE2, 0x82, 0xAC, 0x63, LF]
        ⟨[⟨2, 2⟩], [0xE2, 0x82, 0xAC], [0xE2, 0x82, 0xAC], false, [LF]⟩
      = some [0x62, LF] := by
  obtain ⟨tInit, wf⟩ := wellFormed_of_hypotheses p dInit dEnd hD hT hquote hdInit hdT htD
  refine ⟨?_, by decide⟩
  exact cutFile_records p dInit dEnd tInit LF wf records hshape
    (fun r hr f hf => literalField_of_plain dEnd LF f (hplain r hr f hf))

/-- Records of plain and quoted fields: under the hypotheses on delimiter and
line end of the theorem before, when every field is either plain or of the form
quote, body, quote with a quote-free body that may hold any other bytes
(delimiters and line ends included), `cutFile` counts each such field as one
column and writes the selected ones byte for byte, both quote bytes included. -/
theorem cutFile_quoted_fields (p : parameters) (dInit : Bytes) (dEnd : Byte)
    (hD : p.inputDelimiter = dInit ++ [dEnd])
    (hT : p.lineEnd = [LF] ∨ p.lineEnd = [CR, LF])
    (hquote : DQUOTE ∉ p.inputDelimiter) (hdInit : dEnd ∉ dInit) (hdT : dEnd ∉ p.lineEnd)
    (htD : LF ∉ p.inputDelimiter) (records : List (List Bytes))
    (hshape : wellShaped records)
    (hfields : ∀ r ∈ records, ∀ f ∈ r, plainField dEnd LF f ∨ quotedField f) :
    cutFile (inputText p.inputDelimiter p.lineEnd records) p
      = some (expectedOutput p records) := by
  obtain ⟨tInit, wf⟩ := wellFormed_of_hypotheses p dInit dEnd hD hT hquote hdInit hdT htD
  apply cutFile_records p dInit dEnd tInit LF wf records hshape
  intro r hr f hf
  rcases hfields r hr f hf with h | h
  · exact literalField_of_plain dEnd LF f h
  · exact literalField_of_quoted dEnd LF f h

/-! ## The quoted-record scanner with nothing restricted -/

theorem recordWidths_head (d : Byte) (bs : Bytes) :
    ∀ (q : Bool) (k : Nat), ∃ n tl, recordWidths d bs q k = n :: tl ∧ k ≤ n := by
  induction bs with
  | nil => intro q k; exact ⟨k, [], rfl, le_refl k⟩
  | cons c cs ih =>
    intro q k
    unfold recordWidths
    split
    · exact ih _ _
    · split
      · obtain ⟨n, tl, h, hk⟩ := ih q (k + 1)
        exact ⟨n, tl, h, by omega⟩
      · split
        · exact ⟨k, _, rfl, le_refl k⟩
        · exact ih _ _

theorem isSelected_nil (p : parameters) (h : p.ranges = []) (field : Int) :
    isSelected p field = true := by
  simp [isSelected, h]

theorem step_identity (p : parameters) (d : Byte) (hr : p.ranges = [])
    (hin : p.inputDelimiter = [d]) (hout : p.outputDelimiter = [d]) (hle : p.lineEnd = [LF])
    (hdl : d ≠ LF) (c : Byte) (cs w : Bytes) (m j : Nat) (q hdr fww : Bool)
    (out : Bytes)
    (hH : hdr = true → m = j ∧ noWiderThanFirst (recordWidths d (c :: cs) q (j + 1)))
    (hN : hdr = false → ∀ x ∈ recordWidths d (c :: cs) q (j + 1), x ≤ m) :
    ∃ (w' : Bytes) (m' j' : Nat) (hdr' fww' : Bool) (out' : Bytes),
      step p d LF ⟨w, mask p m, q, hdr, fww, (j : Int) + 1, out⟩ c
        = some ⟨w', mask p m', if c = DQUOTE then !q else q, hdr', fww', (j' : Int) + 1, out'⟩ ∧
      (hdr' = true → m' = j' ∧ noWiderThanFirst
        (recordWidths d cs (if c = DQUOTE then !q else q) (j' + 1))) ∧
      (hdr' = false → ∀ x ∈ recordWidths d cs (if c = DQUOTE then !q else q) (j' + 1), x ≤ m') ∧
      out' ++ (if fww' = true then [d] else []) ++ w'
        = out ++ (if fww = true then [d] else []) ++ w ++ [c] ∧
      (q = false → c = LF → w' = [] ∧ fww' = false) := by
  have hsel : isSelected p ((j : Int) + 1) = true := isSelected_nil p hr _
  have hlq : LF ≠ DQUOTE := by decide
  by_cases hq : c = DQUOTE
  · -- a quote byte toggles the quoting state
    subst hq
    refine ⟨w ++ [DQUOTE], m, j, hdr, fww, out, ?_, ?_, ?_, ?_, ?_⟩
    · cases q <;> simp [step]
    · intro h; simpa [recordWidths] using hH h
    · intro h; simpa [recordWidths] using hN h
    · simp
    · intro _ h; exact absurd h.symm hlq
  · cases q with
    | true =>
      refine ⟨w ++ [c], m, j, hdr, fww, out, ?_, ?_, ?_, ?_, ?_⟩
      · simp [step, hq]
      · intro h; simpa [recordWidths, hq] using hH h
      · intro h; simpa [recordWidths, hq] using hN h
      · simp [hq]
      · intro h; exact absurd h (by simp)
    | false =>
      by_cases hd : c = d
      · -- the delimiter: the field is written, the record goes on
        subst hd
        have hw : recordWidths c (c :: cs) false (j + 1) = recordWidths c cs false (j + 1 + 1) := by
          simp [recordWidths, hq]
        rw [hw] at hH hN
        have hjm : hdr = false → j < m := by
          intro h
          obtain ⟨n, tl, hn, hk⟩ := recordWidths_head c cs false (j + 1 + 1)
          have := hN h n (by rw [hn]; simp)
          omega
        have hwo := writeOut_mask p w m j hdr fww false out (fun h => (hH h).1) hjm
        have ht : tail? (w ++ [c]) p.inputDelimiter = some p.inputDelimiter := by
          rw [hin]; exact tail?_append _ _
        have hk : (w ++ [c]).take ((w ++ [c]).length - p.inputDelimiter.length) = w := by
          rw [hin]; exact take_append_sub _ _
        refine ⟨[], if hdr = true then j + 1 else m, j + 1, hdr, true,
          (if fww = true then out ++ [c] else out) ++ w, ?_, ?_, ?_, ?_, ?_⟩
        · simp only [step, hq, and_false, if_false, true_and, if_true, ht, hk, hwo, hsel,
            Bool.or_true, hout]
          simp
        · intro h
          refine ⟨by simp [h], ?_⟩
          simpa [hq] using (hH h).2
        · intro h
          simpa [hq, h] using hN h
        · cases fww <;> simp [hq]
        · intro _ h
          exact absurd h hdl
      · by_cases hl : c = LF
        · -- the line end: the field and the line end are written, a record starts
          subst hl
          have hw : recordWidths d (LF :: cs) false (j + 1)
              = (j + 1) :: recordWidths d cs false 1 := by
            simp [recordWidths, hq, hd]
          rw [hw] at hH hN
          have hjm : hdr = false → j < m := by
            intro h
            have := hN h (j + 1) (by simp)
            omega
          have hwo := writeOut_mask p w m j hdr fww true out (fun h => (hH h).1) hjm
          have ht : tail? (w ++ [LF]) p.lineEnd = some p.lineEnd := by
            rw [hle]; exact tail?_append _ _
          have hk : (w ++ [LF]).take ((w ++ [LF]).length - p.lineEnd.length) = w := by
            rw [hle]; exact take_append_sub _ _
          refine ⟨[], if hdr = true then j + 1 else m, 0, false, false,
            (if fww = true then out ++ [d] else out) ++ w ++ [LF], ?_, ?_, ?_, ?_, ?_⟩
          · simp only [step, hq, hd, and_false, if_false, true_and, if_true, ht, hk, hwo, hsel,
              Bool.or_true, hout]
            simp [hle]
          · intro h; exact absurd h (by simp)
          · intro _ x hx
            simp only [hq, if_false, Nat.zero_add] at hx
            cases hdr with
            | true =>
              have h2 := (hH rfl).2
              simp only [noWiderThanFirst] at h2
              simpa using h2 x hx
            | false =>
              have := hN rfl x (by simp [hx])
              simpa using this
          · cases fww <;> simp
          · intro _ _; exact ⟨rfl, rfl⟩
        · -- any other byte is data
          have hw : recordWidths d (c :: cs) false (j + 1) = recordWidths d cs false (j + 1) := by
            simp [recordWidths, hq, hd, hl]
          rw [hw] at hH hN
          refine ⟨w ++ [c], m, j, hdr, fww, out, ?_, ?_, ?_, ?_, ?_⟩
          · simp [step, hq, hd, hl]
          · intro h; simpa [hq] using hH h
          · intro h; simpa [hq] using hN h
          · simp
          · intro _ h; exact absurd h hl

theorem steps_identity (p : parameters) (d : Byte) (hr : p.ranges = [])
    (hin : p.inputDelimiter = [d]) (hout : p.outputDelimiter = [d]) (hle : p.lineEnd = [LF])
    (hdl : d ≠ LF) (bs : Bytes) :
    ∀ (w : Bytes) (m j : Nat) (q hdr fww : Bool) (out : Bytes),
      (hdr = true → m = j ∧ noWiderThanFirst (recordWidths d bs q (j + 1))) →
      (hdr = false → ∀ x ∈ recordWidths d bs q (j + 1), x ≤ m) →
      ∃ (w' : Bytes) (m' j' : Nat) (q' hdr' fww' : Bool) (out' : Bytes),
        steps p d LF ⟨w, mask p m, q, hdr, fww, (j : Int) + 1, out⟩ bs
          = some ⟨w', mask p m', q', hdr', fww', (j' : Int) + 1, out'⟩ ∧
        out' ++ (if fww' = true then [d] else []) ++ w'
          = out ++ (if fww = true then [d] else []) ++ w ++ bs ∧
        (∀ pre, bs = pre ++ [LF] → (q = true ↔ pre.count DQUOTE % 2 = 1) →
          w' = [] ∧ fww' = false) := by
  induction bs with
  | nil =>
    intro w m j q hdr fww out _ _
    refine ⟨w, m, j, q, hdr, fww, out, rfl, by simp, ?_⟩
    intro pre h
    simp at h
  | cons c cs ih =>
    intro w m j q hdr fww out hH hN
    obtain ⟨w1, m1, j1, hdr1, fww1, out1, hstep, hH1, hN1, hcont, hlast⟩ :=
      step_identity p d hr hin hout hle hdl c cs w m j q hdr fww out hH hN
    obtain ⟨w2, m2, j2, q2, hdr2, fww2, out2, hsteps, hcont2, hlast2⟩ :=
      ih w1 m1 j1 (if c = DQUOTE then !q else q) hdr1 fww1 out1 hH1 hN1
    refine ⟨w2, m2, j2, q2, hdr2, fww2, out2, ?_, ?_, ?_⟩
    · simp only [steps, hstep, hsteps]
    · rw [hcont2, hcont]; simp
    · intro pre hpre hpar
      cases pre with
      | nil =>
        simp only [List.nil_append, List.cons.injEq] at hpre
        obtain ⟨hc, hcs⟩ := hpre
        subst hcs
        have hq : q = false := by
          cases q
          · rfl
          · simp at hpar
        have := hlast hq hc
        simp only [steps, Option.some.injEq, State.mk.injEq] at hsteps
        obtain ⟨hw, _, _, _, hf, _, _⟩ := hsteps
        rw [← hw, ← hf]
        exact this
      | cons x xs =>
        simp only [List.cons_append, List.cons.injEq] at hpre
        obtain ⟨hc, hcs⟩ := hpre
        subst hc
        apply hlast2 xs hcs
        by_cases hx : c = DQUOTE
        · subst hx
          simp only [if_true, List.count_cons_self] at hpar ⊢
          cases q <;> simp at hpar ⊢ <;> omega
        · have hx2 : ¬ (c == DQUOTE) = true := by simpa using hx
          simp only [hx, if_false, List.count_cons, hx2, Nat.add_zero] at hpar ⊢
          exact hpar


/-- C10: with no ranges, the output delimiter equal to a one-byte input
delimiter other than the quote byte and LF, and line end LF, every input that
is empty or ends with a line end outside quotes, and in which no record has
more columns than the first, is written out unchanged. -/
theorem cutFile_identity (p : parameters) (d : Byte) (hr : p.ranges = [])
    (hin : p.inputDelimiter = [d]) (hout : p.outputDelimiter = [d]) (hle : p.lineEnd = [LF])
    (_hdq : d ≠ DQUOTE) (hdl : d ≠ LF) (input : Bytes)
    (hend : input = [] ∨ ∃ pre, input = pre ++ [LF] ∧ pre.count DQUOTE % 2 = 0)
    (hwide : noWiderThanFirst (recordWidths d input false 1)) :
    cutFile input p = some input := by
  obtain ⟨w', m', j', q', hdr', fww', out', hsteps, hcont, hlast⟩ :=
    steps_identity p d hr hin hout hle hdl input [] 0 0 false true false []
      (fun _ => ⟨rfl, by simpa using hwide⟩) (fun h => absurd h (by simp))
  have hmask : mask p 0 = [] := rfl
  have h01 : ((0 : Nat) : Int) + 1 = 1 := by simp
  rw [hmask, h01] at hsteps
  have hd : p.inputDelimiter.getLast? = some d := by rw [hin]; simp
  have ht : p.lineEnd.getLast? = some LF := by rw [hle]; simp
  unfold cutFile
  rw [hd, ht]
  simp only [State.init, hsteps]
  rcases hend with h | ⟨pre, hpre, hpar⟩
  · subst h
    simp only [steps, Option.some.injEq, State.mk.injEq] at hsteps
    obtain ⟨hw, _, _, _, _, _, ho⟩ := hsteps
    simp [finish, ← hw, ← ho]
  · obtain ⟨hw, hf⟩ := hlast pre hpre (by simp [hpar])
    subst hw hf
    simp only [Bool.false_eq_true, if_false, List.append_nil, List.nil_append] at hcont
    simp [finish, hcont]

/-- Witness of C7: the delimiter `€`, output delimiter `;`, line end CRLF,
ranges `2-`, and the records `a€b€c` and `d€e`. -/
theorem cutFile_selects_and_joins_witness :
    wellShaped [[[0x61], [0x62], [0x63]], [[0x64], [0x65]]] ∧
    (∀ r ∈ [[[0x61], [0x62], [0x63]], [[0x64], [0x65]]], ∀ f ∈ r, plainField 0xAC LF f) ∧
    cutFile (inputText [0xE2, 0x82, 0xAC] [CR, LF] [[[0x61], [0x62], [0x63]], [[0x64], [0x65]]])
        ⟨[⟨2, 0⟩], [0xE2, 0x82, 0xAC], [0x3B], false, [CR, LF]⟩
      = some (expectedOutput ⟨[⟨2, 0⟩], [0xE2, 0x82, 0xAC], [0x3B], false, [CR, LF]⟩
          [[[0x61], [0x62], [0x63]], [[0x64], [0x65]]]) ∧
    expectedOutput ⟨[⟨2, 0⟩], [0xE2, 0x82, 0xAC], [0x3B], false, [CR, LF]⟩
        [[[0x61], [0x62], [0x63]], [[0x64], [0x65]]] = ascii "b;c\r\ne\r\n" :=
  ⟨by decide, by decide,
    (cutFile_selects_and_joins ⟨[⟨2, 0⟩], [0xE2, 0x82, 0xAC], [0x3B], false, [CR, LF]⟩
      [0xE2, 0x82] 0xAC rfl (Or.inr rfl) (by decide) (by decide) (by decide) (by decide)
      [[[0x61], [0x62], [0x63]], [[0x64], [0x65]]] (by decide) (by decide)).1,
    by decide⟩

/-- An instance of the records of plain and quoted fields: the record
`hans,"moose,goose CRLF"` with delimiter `,`, terminator CRLF and the range `2`. -/
theorem cutFile_quoted_fields_witness :
    quotedField (ascii "\"moose,goose\r\n\"") ∧
    cutFile (inputText [COMMA] [CR, LF] [[ascii "hans", ascii "\"moose,goose\r\n\""]])
        ⟨[⟨2, 2⟩], [COMMA], [COMMA], false, [CR, LF]⟩
      = some (expectedOutput ⟨[⟨2, 2⟩], [COMMA], [COMMA], false, [CR, LF]⟩
          [[ascii "hans", ascii "\"moose,goose\r\n\""]]) ∧
    expectedOutput ⟨[⟨2, 2⟩], [COMMA], [COMMA], false, [CR, LF]⟩
        [[ascii "hans", ascii "\"moose,goose\r\n\""]] = ascii "\"moose,goose\r\n\"\r\n" :=
  ⟨⟨ascii "moose,goose\r\n", by decide, by decide⟩,
    cutFile_quoted_fields ⟨[⟨2, 2⟩], [COMMA], [COMMA], false, [CR, LF]⟩ [] COMMA rfl
      (Or.inr rfl) (by decide) (by decide) (by decide) (by decide)
      [[ascii "hans", ascii "\"moose,goose\r\n\""]] (by decide)
      (by
        intro r hr f hf
        simp only [List.mem_singleton] at hr
        subst hr
        simp only [List.mem_cons, List.mem_singleton, List.not_mem_nil, or_false] at hf
        rcases hf with rfl | rfl
        · exact Or.inl (by decide)
        · exact Or.inr ⟨ascii "moose,goose\r\n", by decide, by decide⟩),
    by decide⟩

/-- C9, the code at the failing input: on `a,b LF c,` with delimiter `,`,
terminator LF and no ranges, `cutFile` writes `a,b LF c` and no terminator
after the last record. -/
theorem cutFile_tail_without_lineEnd :
    cutFile (ascii "a,b\nc,") ⟨[], [COMMA], [COMMA], false, [LF]⟩ = some (ascii "a,b\nc") := by
  decide

/-- Witness of C10: the input `a,b LF "x LF y",c LF` with delimiter `,`. -/
theorem cutFile_identity_witness :
    (ascii "a,b\n\"x\ny\",c\n" = [] ∨ ∃ pre, ascii "a,b\n\"x\ny\",c\n" = pre ++ [LF] ∧
      pre.count DQUOTE % 2 = 0) ∧
    noWiderThanFirst (recordWidths COMMA (ascii "a,b\n\"x\ny\",c\n") false 1) ∧
    cutFile (ascii "a,b\n\"x\ny\",c\n") ⟨[], [COMMA], [COMMA], false, [LF]⟩
      = some (ascii "a,b\n\"x\ny\",c\n") :=
  ⟨Or.inr ⟨ascii "a,b\n\"x\ny\",c", by decide, by decide⟩, by decide,
    cutFile_identity ⟨[], [COMMA], [COMMA], false, [LF]⟩ COMMA rfl rfl rfl rfl (by decide)
      (by decide) (ascii "a,b\n\"x\ny\",c\n")
      (Or.inr ⟨ascii "a,b\n\"x\ny\",c", by decide, by decide⟩) (by decide)⟩

end Csv

/-! ## The line tool -/

namespace Cut
open CsvCut

theorem isSuffixOf_newline (s : Bytes) : [LF].isSuffixOf s = true ↔ ∃ t, s = t ++ [LF] := by
  rw [List.isSuffixOf_iff_suffix]
  constructor
  · rintro ⟨t, ht⟩; exact ⟨t, ht.symm⟩
  · rintro ⟨t, ht⟩; exact ⟨t, ht.symm⟩

theorem ensureNewLine_of_newline (t : Bytes) : ensureNewLine (t ++ [LF]) = t ++ [LF] := by
  have h : [LF].isSuffixOf (t ++ [LF]) = true := (isSuffixOf_newline _).2 ⟨t, rfl⟩
  simp [ensureNewLine, stringsTrimSuffix, fmtSprintln, h]

theorem ensureNewLine_of_no_newline (s : Bytes) (h : ¬ ∃ t, s = t ++ [LF]) :
    ensureNewLine s = s ++ [LF] := by
  have h2 : ¬ ([LF].isSuffixOf s = true) := fun e => h ((isSuffixOf_newline s).1 e)
  simp [ensureNewLine, stringsTrimSuffix, fmtSprintln, h2]

/-- C15: `ensureNewLine` leaves a string that ends with a newline as it is
and appends one newline to any other string; so its result ends with a
newline, a string with a newline gains no second one, and applying it twice is
applying it once. -/
theorem ensureNewLine_normalises (s : Bytes) :
    ((∃ t, s = t ++ [LF]) → ensureNewLine s = s) ∧
    ((¬ ∃ t, s = t ++ [LF]) → ensureNewLine s = s ++ [LF]) ∧
    (∃ t, ensureNewLine s = t ++ [LF]) ∧
    ensureNewLine (ensureNewLine s) = ensureNewLine s := by
  by_cases h : ∃ t, s = t ++ [LF]
  · obtain ⟨t, rfl⟩ := h
    have e := ensureNewLine_of_newline t
    exact ⟨fun _ => e, fun hn => absurd ⟨t, rfl⟩ hn, ⟨t, e⟩, by rw [e, e]⟩
  · have e := ensureNewLine_of_no_newline s h
    exact ⟨fun hn => absurd hn h, fun _ => e, ⟨s, e⟩, by rw [e, ensureNewLine_of_newline]⟩

/-- Witness of C15 at the strings `ab LF` and `ab`. -/
theorem ensureNewLine_normalises_witness :
    ensureNewLine (ascii "ab\n") = ascii "ab\n" ∧ ensureNewLine (ascii "ab") = ascii "ab\n" :=
  ⟨(ensureNewLine_normalises (ascii "ab\n")).1 ⟨ascii "ab", by decide⟩,
    (ensureNewLine_normalises (ascii "ab")).2.1 (by
      rintro ⟨t, ht⟩
      have := congrArg List.getLast? ht
      simp at this
      revert this
      decide)⟩

theorem selectedFields_nil (p : parameters) (h : p.ranges = []) (total : Nat) :
    selectedFields p total = [] := by
  rw [selectedFields_eq_filter, h]
  simp [selectedFieldsInner]

/-- C16: with an empty range list `cutLine` returns the line unchanged, in
every mode and for every delimiter and complement flag. -/
theorem cutLine_no_ranges (line : Bytes) (p : parameters) (h : p.ranges = []) :
    cutLine line p = some line := by
  have hs := selectedFields_nil p h
  unfold cutLine
  cases hm : p.mode
  · simp only [collectFields, hs]
    split <;> simp [stringsJoin]
  · simp [collectBytes, hs, stringsJoin]
  · simp [collectCharacters, hs, stringsJoin]

/-- Witness of C16 in character mode on the line `€foo`. -/
theorem cutLine_no_ranges_witness :
    cutLine [0xE2, 0x82, 0xAC, 0x66, 0x6F, 0x6F]
        ⟨.characterMode, [], [COMMA], [COMMA], false, true⟩
      = some [0xE2, 0x82, 0xAC, 0x66, 0x6F, 0x6F] :=
  cutLine_no_ranges _ _ rfl

theorem fieldNumbers_pairwise (n : Nat) : (fieldNumbers n).Pairwise (· < ·) := by
  unfold fieldNumbers
  rw [List.pairwise_map]
  exact (List.pairwise_lt_range' 1 n).imp (fun h => by simpa using h)

theorem mem_fieldNumbers (n : Nat) (i : Int) :
    i ∈ fieldNumbers n ↔ 1 ≤ i ∧ i ≤ n := by
  unfold fieldNumbers
  simp only [List.mem_map, List.mem_range'_1]
  constructor
  · rintro ⟨k, ⟨h1, h2⟩, rfl⟩
    simp only [Int.ofNat_eq_coe]
    omega
  · rintro ⟨h1, h2⟩
    refine ⟨i.toNat, ⟨by omega, by omega⟩, ?_⟩
    simp only [Int.ofNat_eq_coe]
    omega

/-- C18: for every range list, complement flag and total `N`, `selectedFields`
returns a strictly increasing list of indices within `1..N`; so no index is
returned twice. -/
theorem selectedFields_increasing (p : parameters) (N : Nat) :
    (selectedFields p N).Pairwise (· < ·) ∧
    (∀ i ∈ selectedFields p N, 1 ≤ i ∧ i ≤ N) ∧
    (selectedFields p N).Nodup := by
  have hp : (selectedFields p N).Pairwise (· < ·) := by
    rw [selectedFields_eq_filter]
    exact (fieldNumbers_pairwise N).filter _
  refine ⟨hp, ?_, hp.imp (fun h => ne_of_lt h)⟩
  intro i hi
  rw [selectedFields_eq_filter] at hi
  exact (mem_fieldNumbers N i).1 (List.mem_filter.1 hi).1

/-- Witness of C18 at the ranges `1-3,3` and three fields. -/
theorem selectedFields_increasing_witness :
    selectedFields ⟨.fieldMode, parseRanges (ascii "1-3,3"), [COMMA], [COMMA], false, false⟩ 3
      = [1, 2, 3] ∧
    (selectedFields ⟨.fieldMode, parseRanges (ascii "1-3,3"), [COMMA], [COMMA], false, false⟩
      3).Pairwise (· < ·) :=
  ⟨by decide, (selectedFields_increasing _ 3).1⟩

end Cut

namespace Csv
open CsvCut

/-- C19: for two range lists that are permutations of each other, every
complement flag and every field number, `isSelected` returns the same. -/
theorem isSelected_perm (p q : parameters) (field : Int) (hperm : p.ranges.Perm q.ranges)
    (hc : p.complement = q.complement) : isSelected p field = isSelected q field := by
  have hlen : p.ranges.length = q.ranges.length := hperm.length_eq
  have hmem : ∀ r, r ∈ p.ranges ↔ r ∈ q.ranges := fun r => hperm.mem_iff
  unfold isSelected
  rw [hlen, ← hc]
  by_cases hq : q.ranges.length = 0
  · rw [if_pos hq, if_pos hq]
  · rw [if_neg hq, if_neg hq, Bool.eq_iff_iff]
    cases p.complement
    · rw [isSelectedLoop_false, isSelectedLoop_false]
      simp only [hmem]
    · rw [isSelectedLoop_true, isSelectedLoop_true]
      simp only [hmem]

/-- Witness of C19 at the ranges `1,3-` and `3-,1`. -/
theorem isSelected_perm_witness :
    isSelected ⟨[⟨1, 1⟩, ⟨3, 0⟩], [COMMA], [COMMA], true, [LF]⟩ 2
      = isSelected ⟨[⟨3, 0⟩, ⟨1, 1⟩], [COMMA], [COMMA], true, [LF]⟩ 2 :=
  isSelected_perm ⟨[⟨1, 1⟩, ⟨3, 0⟩], [COMMA], [COMMA], true, [LF]⟩
    ⟨[⟨3, 0⟩, ⟨1, 1⟩], [COMMA], [COMMA], true, [LF]⟩ 2 (List.Perm.swap _ _ _) rfl

end Csv

namespace Cut
open CsvCut

end Cut

namespace CsvCut

theorem stringsJoin_cons (a : Bytes) (l : List Bytes) (sep : Bytes) (h : l ≠ []) :
    stringsJoin (a :: l) sep = a ++ sep ++ stringsJoin l sep := by
  cases l with
  | nil => exact absurd rfl h
  | cons b rest => rfl

theorem splitLoop_ne_nil (fuel : Nat) (s sep : Bytes) : splitLoop fuel s sep ≠ [] := by
  cases fuel with
  | zero => simp [splitLoop]
  | succ f =>
    unfold splitLoop
    split <;> simp

theorem stringsIndex_some_split (sep : Bytes) (s : Bytes) :
    ∀ m, stringsIndex s sep = some m →
      s = s.take m ++ sep ++ s.drop (m + sep.length) := by
  induction s with
  | nil =>
    intro m h
    by_cases hs : sep = []
    · simp [hs]
    · simp [stringsIndex, hs] at h
  | cons c cs ih =>
    intro m h
    by_cases hp : sep.isPrefixOf (c :: cs) = true
    · have e : stringsIndex (c :: cs) sep = some 0 := by simp [stringsIndex, hp]
      rw [e] at h
      have hm : m = 0 := by simpa using h.symm
      subst hm
      obtain ⟨t, ht⟩ := List.isPrefixOf_iff_prefix.1 hp
      rw [← ht]
      simp
    · have e : stringsIndex (c :: cs) sep = (stringsIndex cs sep).map (· + 1) := by
        simp [stringsIndex, hp]
      rw [e] at h
      obtain ⟨k, hk, rfl⟩ := Option.map_eq_some'.1 h
      have := ih k hk
      have e2 : k + 1 + sep.length = (k + sep.length) + 1 := by omega
      rw [e2]
      simp only [List.take_succ_cons, List.drop_succ_cons, List.cons_append]
      rw [← this]

theorem stringsIndex_first (sep : Bytes) (hsep : sep ≠ []) (s : Bytes) :
    ∀ m, stringsIndex s sep = some m → stringsIndex (s.take m) sep = none := by
  induction s with
  | nil => intro m _; simp [stringsIndex, hsep]
  | cons c cs ih =>
    intro m h
    by_cases hp : sep.isPrefixOf (c :: cs) = true
    · have e : stringsIndex (c :: cs) sep = some 0 := by simp [stringsIndex, hp]
      rw [e] at h
      have hm : m = 0 := by simpa using h.symm
      subst hm
      simp [stringsIndex, hsep]
    · have e : stringsIndex (c :: cs) sep = (stringsIndex cs sep).map (· + 1) := by
        simp [stringsIndex, hp]
      rw [e] at h
      obtain ⟨k, hk, rfl⟩ := Option.map_eq_some'.1 h
      have hp2 : ¬ sep.isPrefixOf (c :: cs.take k) = true := by
        intro hq
        apply hp
        rw [List.isPrefixOf_iff_prefix] at hq ⊢
        exact hq.trans ((List.prefix_cons_inj c).2 (List.take_prefix k cs))
      simp [stringsIndex, hp2, ih k hk]

theorem splitLoop_join (sep : Bytes) (fuel : Nat) :
    ∀ s, stringsJoin (splitLoop fuel s sep) sep = s := by
  induction fuel with
  | zero => intro s; simp [splitLoop, stringsJoin]
  | succ f ih =>
    intro s
    unfold splitLoop
    cases h : stringsIndex s sep with
    | none => simp [stringsJoin]
    | some m =>
      simp only []
      rw [stringsJoin_cons _ _ _ (splitLoop_ne_nil _ _ _), ih]
      exact (stringsIndex_some_split sep s m h).symm

theorem splitLoop_pieces (sep : Bytes) (hsep : sep ≠ []) (fuel : Nat) :
    ∀ s, s.length ≤ fuel → ∀ piece ∈ splitLoop fuel s sep, stringsIndex piece sep = none := by
  induction fuel with
  | zero =>
    intro s hs piece hp
    have : s = [] := List.length_eq_zero.1 (by omega)
    subst this
    simp [splitLoop] at hp
    subst hp
    simp [stringsIndex, hsep]
  | succ f ih =>
    intro s hs piece hp
    unfold splitLoop at hp
    cases h : stringsIndex s sep with
    | none =>
      rw [h] at hp
      simp at hp
      subst hp
      exact h
    | some m =>
      rw [h] at hp
      simp only [List.mem_cons] at hp
      rcases hp with rfl | hp
      · exact stringsIndex_first sep hsep s m h
      · have hlen := congrArg List.length (stringsIndex_some_split sep s m h)
        have hpos : 0 < sep.length := List.length_pos.2 hsep
        simp only [List.length_append] at hlen
        exact ih _ (by omega) piece hp

theorem stringsSplit_pieces (s sep : Bytes) (hsep : sep ≠ []) :
    stringsJoin (stringsSplit s sep) sep = s ∧
    ∀ piece ∈ stringsSplit s sep, stringsContains piece sep = false := by
  unfold stringsSplit
  rw [if_neg hsep]
  refine ⟨splitLoop_join sep _ s, ?_⟩
  intro piece hp
  simp [stringsContains, splitLoop_pieces sep hsep _ s (le_refl _) piece hp]

end CsvCut

namespace Cut
open CsvCut

theorem collectLoop_range (piece : Int → Option Bytes) (P : Int → Bool) (pieces : List Bytes) :
    ∀ off : Nat, (∀ k, k < pieces.length → piece ((off : Int) + k + 1) = pieces.get? k) →
      collectLoop piece (((List.range' (off + 1) pieces.length).map Int.ofNat).filter P)
        = some (((pieces.zip ((List.range' (off + 1) pieces.length).map Int.ofNat)).filter
            (fun x => P x.2)).map Prod.fst) := by
  induction pieces with
  | nil => intro off _; simp [collectLoop]
  | cons a rest ih =>
    intro off h
    have h0 : piece (Int.ofNat (off + 1)) = some a := by
      have := h 0 (by simp)
      simpa using this
    have hrec := ih (off + 1) (fun k hk => by
      have := h (k + 1) (by simp; omega)
      have e : ((off + 1 : Nat) : Int) + (k : Int) + 1 = (off : Int) + ((k + 1 : Nat) : Int) + 1 := by
        push_cast; ring
      rw [e, this]
      simp)
    simp only [List.length_cons, List.range'_succ, List.map_cons, List.zip_cons_cons,
      List.filter_cons]
    cases hP : P (Int.ofNat (off + 1))
    · simpa using hrec
    · simp only [if_true, collectLoop, h0, hrec, List.map_cons]

theorem collectLoop_selected (p : parameters) (piece : Int → Option Bytes)
    (pieces : List Bytes) (h : ∀ k, k < pieces.length → piece ((k : Int) + 1) = pieces.get? k) :
    collectLoop piece (selectedFields p pieces.length)
      = some (piecesAt (selectedFields p pieces.length) pieces) := by
  have hr := collectLoop_range piece (fun f => selectedFieldsInner p.complement f p.ranges)
    pieces 0 (fun k hk => by simpa using h k hk)
  rw [selectedFields_eq_filter]
  simp only [Nat.zero_add] at hr
  unfold piecesAt fieldNumbers at *
  rw [hr]
  congr 2
  apply List.filter_congr
  intro x hx
  have hx2 : x.2 ∈ (List.range' 1 pieces.length).map Int.ofNat := (List.of_mem_zip hx).2
  simp [List.mem_filter, hx2]

/-- C11: in field mode, for a non-empty delimiter, a line that contains it and
ranges that select at least one of the `k` pieces of the split of the line,
`cutLine` returns the pieces at the indices of `selectedFields`, in ascending
order and each once, joined by the output delimiter. The pieces are those of
the literal split: joined by the delimiter they give the line, and none holds
the delimiter. The delimiter `,` and the range `1` turn `hans,hansen,moose`
into `hans`. -/
theorem cutLine_field_mode (line : Bytes) (p : parameters) (hmode : p.mode = .fieldMode)
    (hD : p.inputDelimiter ≠ []) (hc : stringsContains line p.inputDelimiter = true)
    (hsel : selectedFields p (stringsSplit line p.inputDelimiter).length ≠ []) :
    cutLine line p
        = some (stringsJoin
            (piecesAt (selectedFields p (stringsSplit line p.inputDelimiter).length)
              (stringsSplit line p.inputDelimiter)) p.outputDelimiter) ∧
    stringsJoin (stringsSplit line p.inputDelimiter) p.inputDelimiter = line ∧
    (∀ piece ∈ stringsSplit line p.inputDelimiter,
      stringsContains piece p.inputDelimiter = false) ∧
    cutLine (ascii "hans,hansen,moose")
        ⟨.fieldMode, parseRanges (ascii "1"), [COMMA], [COMMA], false, false⟩
      = some (ascii "hans") := by
  refine ⟨?_, (stringsSplit_pieces line _ hD).1, (stringsSplit_pieces line _ hD).2, by decide⟩
  have hlen : ¬ (selectedFields p (stringsSplit line p.inputDelimiter).length).length = 0 := by
    simpa using hsel
  have hcollect := collectLoop_selected p
    (fun selectedField => index? (stringsSplit line p.inputDelimiter) (selectedField - 1))
    (stringsSplit line p.inputDelimiter) (fun k _ => by
      have h1 : ¬ ((k : Int) + 1 - 1 < 0) := by omega
      simp [index?, h1])
  simp only [cutLine, hmode, collectFields, hc, not_true_eq_false, if_false, hlen, hcollect,
    Option.map_some']

/-- Witness of C11 on the line `a,b,c` with the ranges `1,3` and output
delimiter `;`. -/
theorem cutLine_field_mode_witness :
    cutLine (ascii "a,b,c") ⟨.fieldMode, parseRanges (ascii "1,3"), [COMMA], [0x3B], false, false⟩
      = some (stringsJoin (piecesAt [1, 3] [ascii "a", ascii "b", ascii "c"]) [0x3B]) ∧
    stringsJoin (piecesAt [1, 3] [ascii "a", ascii "b", ascii "c"]) [0x3B] = ascii "a;c" :=
  ⟨(cutLine_field_mode (ascii "a,b,c")
      ⟨.fieldMode, parseRanges (ascii "1,3"), [COMMA], [0x3B], false, false⟩ rfl (by decide)
      (by decide) (by decide)).1,
    by decide⟩

theorem slice?_single (bs : Bytes) (k : Nat) (hk : k < bs.length) :
    slice? bs ((k : Int) + 1 - 1) ((k : Int) + 1) = (bs.map (fun b => [b])).get? k := by
  have h1 : ¬ ((k : Int) + 1 - 1 < 0 ∨ (k : Int) + 1 < (k : Int) + 1 - 1
      ∨ (bs.length : Int) < (k : Int) + 1) := by omega
  have h2 : ((k : Int) + 1 - 1).toNat = k := by simp
  have h3 : ((k : Int) + 1).toNat - k = 1 := by
    have : ((k : Int) + 1).toNat = k + 1 := by omega
    omega
  have h4 : List.take 1 (List.drop k bs) = [bs[k]] := by
    rw [List.drop_eq_getElem_cons hk, List.take_succ_cons, List.take_zero]
  simp only [slice?, h1, if_false, h2, h3, h4]
  rw [List.get?_eq_getElem?, List.getElem?_map, List.getElem?_eq_getElem hk]
  rfl

/-- C17: in byte mode, for ranges that select at least one position of the
line, `cutLine` returns the selected single bytes of the line, one segment per
selected position in ascending order, joined by the output delimiter; a
multi-byte character may be split: the range `-2` on `€foo` gives the bytes
E2 82. -/
theorem cutLine_byte_mode (line : Bytes) (p : parameters) (hmode : p.mode = .byteMode)
    (hsel : selectedFields p line.length ≠ []) :
    cutLine line p
        = some (stringsJoin
            (piecesAt (selectedFields p line.length) (line.map (fun b => [b])))
            p.outputDelimiter) ∧
    cutLine [0xE2, 0x82, 0xAC, 0x66, 0x6F, 0x6F]
        ⟨.byteMode, parseRanges (ascii "-2"), [9], [], false, false⟩
      = some [0xE2, 0x82] := by
  refine ⟨?_, by decide⟩
  have hlen : ¬ (selectedFields p line.length).length = 0 := by simpa using hsel
  have hcollect := collectLoop_selected p
    (fun selectedField => slice? line (selectedField - 1) selectedField)
    (line.map (fun b => [b])) (fun k hk => by
      rw [List.length_map] at hk
      exact slice?_single line k hk)
  rw [List.length_map] at hcollect
  simp only [cutLine, hmode, collectBytes, hlen, if_false, hcollect, Option.map_some']

/-- Witness of C17 on the line `abc` with the ranges `1,3` and output
delimiter `;`. -/
theorem cutLine_byte_mode_witness :
    cutLine (ascii "abc") ⟨.byteMode, parseRanges (ascii "1,3"), [9], [0x3B], false, false⟩
      = some (stringsJoin (piecesAt [1, 3] [[0x61], [0x62], [0x63]]) [0x3B]) ∧
    stringsJoin (piecesAt [1, 3] [[0x61], [0x62], [0x63]]) [0x3B] = ascii "a;c" :=
  ⟨(cutLine_byte_mode (ascii "abc")
      ⟨.byteMode, parseRanges (ascii "1,3"), [9], [0x3B], false, false⟩ rfl (by decide)).1,
    by decide⟩

end Cut

namespace Cut
open CsvCut

theorem readStringLoop_no_newline (line cur : Bytes) (h : LF ∉ line) :
    readStringLoop line cur = [cur ++ line] := by
  induction line generalizing cur with
  | nil => simp [readStringLoop]
  | cons c cs ih =>
    have h1 : ¬ c = LF := fun e => h (by simp [e])
    have h2 : LF ∉ cs := fun e => h (by simp [e])
    simp [readStringLoop, h1, ih _ h2]

/-- C12: in field mode, for a line that does not contain the input delimiter
and for every range list and complement flag, `cutLine` returns the line
unchanged; when `delimitedOnly` is not set, the loop of `cutFile` writes the
line whole with one newline at its end, and a file of such a line alone comes
out as the line and a newline. -/
theorem cutLine_without_delimiter (line : Bytes) (p : parameters)
    (hmode : p.mode = .fieldMode) (hc : stringsContains line p.inputDelimiter = false) :
    cutLine line p = some line ∧
    (p.delimitedOnly = false → lineOutput line p = some (ensureNewLine line)) ∧
    (p.delimitedOnly = false → LF ∉ line → cutFile line p = some (line ++ [LF])) := by
  have hcut : cutLine line p = some line := by
    simp [cutLine, hmode, collectFields, hc, stringsJoin]
  have hout : p.delimitedOnly = false → lineOutput line p = some (ensureNewLine line) := by
    intro hd
    simp [lineOutput, skipLine, hd, hcut]
  refine ⟨hcut, hout, ?_⟩
  intro hd hlf
  have hno : ¬ ∃ t, line = t ++ [LF] := by
    rintro ⟨t, ht⟩
    apply hlf
    rw [ht]
    simp
  have hr : readStrings line = [line] := by
    simpa [readStrings] using readStringLoop_no_newline line [] hlf
  simp [cutFile, hr, cutFileLoop, hout hd, ensureNewLine_of_no_newline line hno]

/-- Witness of C12 on the line `no delimiter here` with delimiter `,` and the
range `2`. -/
theorem cutLine_without_delimiter_witness :
    stringsContains (ascii "no delimiter here") [COMMA] = false ∧
    cutLine (ascii "no delimiter here")
        ⟨.fieldMode, parseRanges (ascii "2"), [COMMA], [COMMA], false, false⟩
      = some (ascii "no delimiter here") ∧
    cutFile (ascii "no delimiter here")
        ⟨.fieldMode, parseRanges (ascii "2"), [COMMA], [COMMA], false, false⟩
      = some (ascii "no delimiter here" ++ [LF]) :=
  ⟨by decide,
    (cutLine_without_delimiter (ascii "no delimiter here")
      ⟨.fieldMode, parseRanges (ascii "2"), [COMMA], [COMMA], false, false⟩ rfl
      (by decide)).1,
    (cutLine_without_delimiter (ascii "no delimiter here")
      ⟨.fieldMode, parseRanges (ascii "2"), [COMMA], [COMMA], false, false⟩ rfl
      (by decide)).2.2 rfl (by decide)⟩

/-- C13, counterexample: with `delimitedOnly` set and delimiter `,`, the empty
string does not contain the delimiter, `skipLine` does not skip it, and the
loop of `cutFile` writes a newline for it. -/
theorem skipLine_empty_counterexample :
    stringsContains [] [COMMA] = false ∧
    ¬ (skipLine [] ⟨.fieldMode, [⟨2, 2⟩], [COMMA], [COMMA], true, false⟩ = true) ∧
    lineOutput [] ⟨.fieldMode, [⟨2, 2⟩], [COMMA], [COMMA], true, false⟩ = some [LF] := by
  decide

/-- C13, amended: when `delimitedOnly` is set, `skipLine` is true for every
non-empty string that does not contain the input delimiter, the loop of
`cutFile` writes no bytes for it, and a file of such a line alone gives no
output. -/
theorem skipLine_only_delimited (line : Bytes) (p : parameters)
    (hd : p.delimitedOnly = true) (hne : line ≠ [])
    (hc : stringsContains line p.inputDelimiter = false) :
    skipLine line p = true ∧ lineOutput line p = some [] ∧
    (LF ∉ line → cutFile line p = some []) := by
  have hlen : 0 < line.length := List.length_pos.2 hne
  have hskip : skipLine line p = true := by
    simp [skipLine, hd, hc, hlen]
  have hout : lineOutput line p = some [] := by
    simp [lineOutput, hskip]
  refine ⟨hskip, hout, ?_⟩
  intro hlf
  have hr : readStrings line = [line] := by
    simpa [readStrings] using readStringLoop_no_newline line [] hlf
  simp [cutFile, hr, cutFileLoop, hout]

/-- Witness of C13 (amended) on the line `no delimiter here`. -/
theorem skipLine_only_delimited_witness :
    skipLine (ascii "no delimiter here")
        ⟨.fieldMode, parseRanges (ascii "2"), [COMMA], [COMMA], true, false⟩ = true ∧
    cutFile (ascii "no delimiter here")
        ⟨.fieldMode, parseRanges (ascii "2"), [COMMA], [COMMA], true, false⟩ = some [] :=
  ⟨(skipLine_only_delimited (ascii "no delimiter here")
      ⟨.fieldMode, parseRanges (ascii "2"), [COMMA], [COMMA], true, false⟩ rfl (by decide)
      (by decide)).1,
    (skipLine_only_delimited (ascii "no delimiter here")
      ⟨.fieldMode, parseRanges (ascii "2"), [COMMA], [COMMA], true, false⟩ rfl (by decide)
      (by decide)).2.2 (by decide)⟩

/-- C14, the code at the failing input: on the one line `a€b€c LF` with
delimiter `€` and the range `2`, `ReadString` hands out the line and then an
empty string at the end of the input, and `cutFile` writes `b LF LF`: the line
and one more newline. -/
theorem cutFile_extra_newline :
    readStrings [0x61, 0xE2, 0x82, 0xAC, 0x62, 0xE2, 0x82, 0xAC, 0x63, LF]
      = [[0x61, 0xE2, 0x82, 0xAC, 0x62, 0xE2, 0x82, 0xAC, 0x63, LF], []] ∧
    lineOutput [0x61, 0xE2, 0x82, 0xAC, 0x62, 0xE2, 0x82, 0xAC, 0x63, LF]
        ⟨.fieldMode, parseRanges (ascii "2"), [0xE2, 0x82, 0xAC], [0xE2, 0x82, 0xAC], false, false⟩
      = some [0x62, LF] ∧
    cutFile [0x61, 0xE2, 0x82, 0xAC, 0x62, 0xE2, 0x82, 0xAC, 0x63, LF]
        ⟨.fieldMode, parseRanges (ascii "2"), [0xE2, 0x82, 0xAC], [0xE2, 0x82, 0xAC], false, false⟩
      = some [0x62, LF, LF] := by
  decide

end Cut

/-! ## Lenient range parsing -/

namespace CsvCut

theorem stringsIndex_byte_some (b : Nat) (raw : Bytes) :
    ∀ m, stringsIndex raw [b] = some m →
      m < raw.length ∧ b ∉ raw.take m ∧ raw.get? m = some b := by
  induction raw with
  | nil => intro m h; simp [stringsIndex] at h
  | cons c cs ih =>
    intro m h
    by_cases hc : b = c
    · have e : stringsIndex (c :: cs) [b] = some 0 := by
        simp [stringsIndex, List.isPrefixOf, hc]
      rw [e] at h
      have hm : m = 0 := by simpa using h.symm
      subst hm
      simp [hc]
    · have e : stringsIndex (c :: cs) [b] = (stringsIndex cs [b]).map (· + 1) := by
        simp [stringsIndex, List.isPrefixOf, hc]
      rw [e] at h
      obtain ⟨k, hk, rfl⟩ := Option.map_eq_some'.1 h
      obtain ⟨h1, h2, h3⟩ := ih k hk
      refine ⟨by simp; omega, ?_, by simpa using h3⟩
      simp only [List.take_succ_cons, List.mem_cons, not_or]
      exact ⟨hc, h2⟩

theorem decimalLoop_append (fuel n : Nat) (acc : Bytes) :
    decimalLoop fuel n acc = decimalLoop fuel n [] ++ acc := by
  induction fuel generalizing n acc with
  | zero => simp [decimalLoop]
  | succ fuel ih =>
    unfold decimalLoop
    split
    · simp
    · rw [ih (n / 10) ((48 + n % 10) :: acc), ih (n / 10) [48 + n % 10]]
      simp

theorem parseUintLoop_decimalLoop_range (fuel n : Nat) (acc : Bytes) (hf : n < fuel)
    (hn : maxVal32 < n) :
    parseUintLoop (decimalLoop fuel n acc) 0 = (maxVal32, some .errRange) := by
  induction fuel generalizing n acc with
  | zero => omega
  | succ fuel ih =>
    have h10 : ¬ n < 10 := by unfold maxVal32 at hn; omega
    unfold decimalLoop
    rw [if_neg h10]
    by_cases hbig : maxVal32 < n / 10
    · exact ih (n / 10) _ (by omega) hbig
    · rw [parseUintLoop_decimalLoop fuel (n / 10) _ (by omega) (by omega)]
      have h1 : 48 ≤ 48 + n % 10 ∧ 48 + n % 10 ≤ 57 := by omega
      have h3 : n / 10 * 10 + (48 + n % 10 - 48) = n := by omega
      simp only [parseUintLoop, h1, h3, and_self, if_true, gt_iff_lt, hn]

theorem parseUint_decimal (n : Nat) :
    parseUint (decimal n)
      = if n ≤ maxVal32 then (n, none) else (maxVal32, some .errRange) := by
  have hne := decimal_ne_nil n
  unfold parseUint
  rw [if_neg hne]
  unfold decimal
  by_cases h : n ≤ maxVal32
  · rw [if_pos h, parseUintLoop_decimalLoop _ _ _ (by omega) h]
    rfl
  · rw [if_neg h, parseUintLoop_decimalLoop_range _ _ _ (by omega) (by omega)]

theorem parseUint_decimal_then_other (n c : Nat) (rest : Bytes) (hn : n ≤ maxVal32)
    (hc : ¬ (48 ≤ c ∧ c ≤ 57)) :
    parseUint (decimal n ++ c :: rest) = (0, some .errSyntax) := by
  have hne : decimal n ++ c :: rest ≠ [] := by simp
  unfold parseUint
  rw [if_neg hne]
  unfold decimal
  rw [← decimalLoop_append, parseUintLoop_decimalLoop _ _ _ (by omega) hn]
  simp [parseUintLoop, hc]

theorem parseUint_other (c : Nat) (rest : Bytes) (hc : ¬ (48 ≤ c ∧ c ≤ 57)) :
    parseUint (c :: rest) = (0, some .errSyntax) := by
  simp [parseUint, parseUintLoop, hc]

theorem decimal_head (n : Nat) :
    ∃ c cs, decimal n = c :: cs ∧ 48 ≤ c ∧ c ≤ 57 := by
  cases h : decimal n with
  | nil => exact absurd h (decimal_ne_nil n)
  | cons c cs =>
    have := decimal_digits n c (by rw [h]; simp)
    exact ⟨c, cs, rfl, this⟩

theorem parseInt_unsigned (s : Bytes) (c : Nat) (cs : Bytes) (hs : s = c :: cs)
    (hp : c ≠ PLUS) (hm : c ≠ DASH) :
    parseInt s =
      match parseUint s with
      | (_, some .errSyntax) => 0
      | (un, _) => if un ≥ 2 ^ 31 then 2 ^ 31 - 1 else (un : Int) := by
  subst hs
  simp only [parseInt, strconvParseInt, hp, hm, or_self, if_false, decide_False]
  split <;> simp_all
  split <;> simp

theorem parseInt_minus (body : Bytes) :
    parseInt (DASH :: body) =
      match parseUint body with
      | (_, some .errSyntax) => 0
      | (un, _) => if un > 2 ^ 31 then -(2 ^ 31 : Int) else -(un : Int) := by
  simp only [parseInt, strconvParseInt, or_true, if_true, decide_True]
  split <;> simp_all
  split <;> simp

theorem parseInt_plus (body : Bytes) :
    parseInt (PLUS :: body) =
      match parseUint body with
      | (_, some .errSyntax) => 0
      | (un, _) => if un ≥ 2 ^ 31 then 2 ^ 31 - 1 else (un : Int) := by
  have h : ¬ PLUS = DASH := by decide
  simp only [parseInt, strconvParseInt, true_or, if_true, h, decide_False]
  split <;> simp_all
  split <;> simp

theorem stringsIndex_byte_eq_none (b : Nat) (raw : Bytes)
    (h : stringsIndex raw [b] = none) : b ∉ raw := by
  induction raw with
  | nil => simp
  | cons c cs ih =>
    by_cases hc : b = c
    · have e : stringsIndex (c :: cs) [b] = some 0 := by
        simp [stringsIndex, List.isPrefixOf, hc]
      rw [e] at h
      exact absurd h (by simp)
    · have e : stringsIndex (c :: cs) [b] = (stringsIndex cs [b]).map (· + 1) := by
        simp [stringsIndex, List.isPrefixOf, hc]
      rw [e] at h
      have hn : stringsIndex cs [b] = none := by simpa using h
      simp only [List.mem_cons, not_or]
      exact ⟨hc, ih hn⟩

theorem parseInt_decimal_then_other (n c : Nat) (rest : Bytes) (hn : n ≤ maxVal32)
    (hc : ¬ (48 ≤ c ∧ c ≤ 57)) :
    parseInt (decimal n ++ c :: rest) = 0 ∧
    parseInt (PLUS :: (decimal n ++ c :: rest)) = 0 ∧
    parseInt (DASH :: (decimal n ++ c :: rest)) = 0 := by
  have hu := parseUint_decimal_then_other n c rest hn hc
  obtain ⟨d, ds, hd, hd1, hd2⟩ := decimal_head n
  refine ⟨?_, ?_, ?_⟩
  · rw [parseInt_unsigned (decimal n ++ c :: rest) d (ds ++ c :: rest) (by rw [hd]; rfl)
      (by unfold PLUS; omega) (by unfold DASH; omega), hu]
  · rw [parseInt_plus, hu]
  · rw [parseInt_minus, hu]

theorem parseInt_other (c : Nat) (rest : Bytes) (hc : ¬ (48 ≤ c ∧ c ≤ 57)) :
    parseInt (PLUS :: c :: rest) = 0 ∧ parseInt (DASH :: c :: rest) = 0 ∧
    (c ≠ PLUS → c ≠ DASH → parseInt (c :: rest) = 0) := by
  have hu := parseUint_other c rest hc
  refine ⟨?_, ?_, ?_⟩
  · rw [parseInt_plus, hu]
  · rw [parseInt_minus, hu]
  · intro hp hm
    rw [parseInt_unsigned (c :: rest) c rest rfl hp hm, hu]

theorem parseInt_out_of_range (n : Nat) :
    (2 ^ 31 ≤ n → parseInt (decimal n) = 2 ^ 31 - 1 ∧ parseInt (PLUS :: decimal n) = 2 ^ 31 - 1) ∧
    (2 ^ 31 < n → parseInt (DASH :: decimal n) = -(2 ^ 31)) := by
  have hu := parseUint_decimal n
  obtain ⟨d, ds, hd, hd1, hd2⟩ := decimal_head n
  have hun : parseInt (decimal n)
      = match parseUint (decimal n) with
        | (_, some .errSyntax) => 0
        | (un, _) => if un ≥ 2 ^ 31 then 2 ^ 31 - 1 else (un : Int) :=
    parseInt_unsigned (decimal n) d ds hd (by unfold PLUS; omega) (by unfold DASH; omega)
  refine ⟨fun h => ⟨?_, ?_⟩, fun h => ?_⟩
  · rw [hun, hu]
    by_cases hle : n ≤ maxVal32
    · simp only [hle, if_true]
      rw [if_pos (by omega)]
    · simp only [hle, if_false]
      rfl
  · rw [parseInt_plus, hu]
    by_cases hle : n ≤ maxVal32
    · simp only [hle, if_true]
      rw [if_pos (by omega)]
    · simp only [hle, if_false]
      rfl
  · rw [parseInt_minus, hu]
    by_cases hle : n ≤ maxVal32
    · simp only [hle, if_true]
      rw [if_pos (by omega)]
    · simp only [hle, if_false]
      rfl

/-- C20, counterexample: the bound `99999999999` is out of the 32-bit range
(`strconv.ParseInt` reports a range error) and `parseRanges` gives it the value
2147483647, not 0. -/
theorem parseRanges_out_of_range_counterexample :
    (strconvParseInt (ascii "99999999999")).2 = some .errRange ∧
    parseRanges (ascii "99999999999") = [⟨2147483647, 2147483647⟩] := by
  decide

/-- C20, amended: range parsing never fails and is lenient. The bounds of a
token are read from the whole token when it has no `-`, else from the text
before and the text after its first `-`, and both slices are within the token.
A bound text without any digit (empty, a sign alone, letters) gives 0; so does
a bound text in which, after an optional sign and an optional decimal number of
at most `2^32 - 1`, a byte follows that is not a digit (such as a further `-`).
A decimal number out of the signed 32-bit range does not give 0 but the nearest
bound: 2147483647, or -2147483648 after a minus sign. `abc` gives `(0, 0)` and
`1-2-3` gives `(1, 0)`. -/
theorem parseRanges_lenient :
    (∀ raw : Bytes,
      (stringsIndex raw [DASH] = none →
        DASH ∉ raw ∧ parseRange raw = ⟨parseInt raw, parseInt raw⟩) ∧
      (∀ m, stringsIndex raw [DASH] = some m →
        m < raw.length ∧ DASH ∉ raw.take m ∧ raw.get? m = some DASH ∧
        parseRange raw = ⟨parseInt (raw.take m), parseInt (raw.drop (m + 1))⟩)) ∧
    (∀ raw : Bytes, (∀ c ∈ raw, ¬ (48 ≤ c ∧ c ≤ 57)) → parseInt raw = 0) ∧
    (∀ (n c : Nat) (rest : Bytes), n ≤ 2 ^ 32 - 1 → ¬ (48 ≤ c ∧ c ≤ 57) →
      parseInt (decimal n ++ c :: rest) = 0 ∧
      parseInt (PLUS :: (decimal n ++ c :: rest)) = 0 ∧
      parseInt (DASH :: (decimal n ++ c :: rest)) = 0) ∧
    (∀ (c : Nat) (rest : Bytes), ¬ (48 ≤ c ∧ c ≤ 57) →
      parseInt (PLUS :: c :: rest) = 0 ∧ parseInt (DASH :: c :: rest) = 0 ∧
      (c ≠ PLUS → c ≠ DASH → parseInt (c :: rest) = 0)) ∧
    (∀ n : Nat,
      (2 ^ 31 ≤ n →
        parseInt (decimal n) = 2 ^ 31 - 1 ∧ parseInt (PLUS :: decimal n) = 2 ^ 31 - 1) ∧
      (2 ^ 31 < n → parseInt (DASH :: decimal n) = -(2 ^ 31))) ∧
    parseRanges (ascii "abc") = [⟨0, 0⟩] ∧
    parseRanges (ascii "1-2-3") = [⟨1, 0⟩] := by
  refine ⟨?_, parseInt_no_digit, ?_, parseInt_other, parseInt_out_of_range, by decide,
    by decide⟩
  · intro raw
    refine ⟨?_, ?_⟩
    · intro h
      exact ⟨stringsIndex_byte_eq_none DASH raw h, by simp [parseRange, h, NewRange]⟩
    · intro m h
      obtain ⟨h1, h2, h3⟩ := stringsIndex_byte_some DASH raw m h
      exact ⟨h1, h2, h3, by simp [parseRange, h, NewRange]⟩
  · intro n c rest hn hc
    exact parseInt_decimal_then_other n c rest (by unfold maxVal32; omega) hc

/-- Witness of C20 (amended): the bound texts `2-3`, `12a` and `4294967296`. -/
theorem parseRanges_lenient_witness :
    decimal 2 ++ DASH :: ascii "3" = ascii "2-3" ∧ parseInt (ascii "2-3") = 0 ∧
    parseInt (decimal 12 ++ 0x61 :: []) = 0 ∧
    parseInt (decimal 4294967296) = 2 ^ 31 - 1 :=
  ⟨by decide,
    (parseRanges_lenient.2.2.1 2 DASH (ascii "3") (by decide) (by decide)).1,
    (parseRanges_lenient.2.2.1 12 0x61 [] (by decide) (by decide)).1,
    ((parseRanges_lenient.2.2.2.2.1 4294967296).1 (by decide)).1⟩

end CsvCut

/-! ## Arguments of the line tool -/

namespace Cut
open CsvCut

/-- C21, the code at the failing input: for the single argument
`--output-delimiter=|` the output delimiter of the parsed parameters is
`output-delimiter=|` (the argument without its first two bytes), not `|`; for
the two arguments `--output-delimiter` and `|` it is `|`. -/
theorem parseArguments_output_delimiter :
    parseArguments (fun _ => false) [ascii "--output-delimiter=|"]
      = .parsed ⟨.fieldMode, [], [0x09], ascii "output-delimiter=|", false, false⟩ ∧
    parseArguments (fun _ => false) [ascii "--output-delimiter", ascii "|"]
      = .parsed ⟨.fieldMode, [], [0x09], ascii "|", false, false⟩ := by
  decide

end Cut

/-! ## Single steps of the quoted-record scanner -/

namespace Csv
open CsvCut

/-- C22, the code at the failing input: with line end CRLF a bare LF as the
first byte of a field makes the step fail (the accumulator with the byte is
shorter than the line end, and the slice of its tail is out of range), and so
does the byte AC as the first byte of a field with the delimiter `€` (E2 82
AC); `cutFile` fails on the input of one LF byte. With one byte more in the
accumulator the same bytes are kept as data. -/
theorem step_short_accumulator :
    step ⟨[], [COMMA], [COMMA], false, [CR, LF]⟩ COMMA LF State.init LF = none ∧
    step ⟨[], [0xE2, 0x82, 0xAC], [COMMA], false, [LF]⟩ 0xAC LF State.init 0xAC = none ∧
    cutFile [LF] ⟨[], [COMMA], [COMMA], false, [CR, LF]⟩ = none ∧
    step ⟨[], [COMMA], [COMMA], false, [CR, LF]⟩ COMMA LF
        { State.init with word := [0x61] } LF
      = some { State.init with word := [0x61, LF] } := by
  decide

theorem step_quote (p : parameters) (dEnd tEnd : Byte) (s : State) :
    step p dEnd tEnd s DQUOTE
      = some { s with inEscaped := !s.inEscaped, word := s.word ++ [DQUOTE] } := by
  obtain ⟨w, sel, esc, hdr, fww, wc, out⟩ := s
  cases esc <;> simp [step]

theorem steps_quote_pairs (p : parameters) (dEnd tEnd : Byte) (k : Nat) :
    ∀ s : State, steps p dEnd tEnd s (List.replicate (2 * k) DQUOTE)
      = some { s with word := s.word ++ List.replicate (2 * k) DQUOTE } := by
  induction k with
  | zero => intro s; simp [steps]
  | succ k ih =>
    intro s
    have e : 2 * (k + 1) = (2 * k + 1) + 1 := by ring
    rw [e, List.replicate_succ, List.replicate_succ]
    simp only [steps, step_quote, ih, Bool.not_not, List.append_assoc, List.singleton_append,
      List.cons_append, List.nil_append]

/-- C23: from every scanner state, inside or outside quotes, two quote bytes
in a row lead to the same state with exactly two quote bytes appended to the
accumulator, all else unchanged; so does every run of an even number of quote
bytes. -/
theorem steps_doubled_quotes (p : parameters) (dEnd tEnd : Byte) (s : State) :
    steps p dEnd tEnd s [DQUOTE, DQUOTE]
      = some { s with word := s.word ++ [DQUOTE, DQUOTE] } ∧
    ∀ k : Nat, steps p dEnd tEnd s (List.replicate (2 * k) DQUOTE)
      = some { s with word := s.word ++ List.replicate (2 * k) DQUOTE } := by
  refine ⟨?_, fun k => steps_quote_pairs p dEnd tEnd k s⟩
  simpa using steps_quote_pairs p dEnd tEnd 1 s

theorem writeOut_lookup (p : parameters) (s : State) (eol sel : Bool)
    (hcol : 0 ≤ s.wordCount - 1)
    (hsel : (if s.inHeader = true then s.selected ++ [isSelected p s.wordCount]
        else s.selected).get? (s.wordCount - 1).toNat = some sel) :
    writeOut p s eol
      = some { word := [],
               selected := if s.inHeader = true then s.selected ++ [isSelected p s.wordCount]
                 else s.selected,
               inEscaped := s.inEscaped, inHeader := s.inHeader,
               firstWordWritten := s.firstWordWritten || sel, wordCount := s.wordCount,
               output := s.output ++ (if sel = true then
                 (if s.firstWordWritten = true then p.outputDelimiter else []) ++ s.word
                 else []) } := by
  have hc : ¬ (s.wordCount - 1 < 0) := by omega
  unfold writeOut
  simp only [hc, if_false, hsel]
  cases sel <;> cases hf : s.firstWordWritten <;> simp

theorem writeOut_out_of_bounds (p : parameters) (s : State) (eol : Bool)
    (hdr : s.inHeader = false) (hlen : (s.selected.length : Int) < s.wordCount) :
    writeOut p s eol = none := by
  unfold writeOut
  simp only [hdr, Bool.false_eq_true, if_false]
  by_cases hc : s.wordCount - 1 < 0
  · simp [hc]
  · have hge : s.selected.length ≤ (s.wordCount - 1).toNat := by omega
    have : s.selected.get? (s.wordCount - 1).toNat = none := by
      rw [List.get?_eq_getElem?]
      exact List.getElem?_eq_none hge
    simp only [hc, if_false, this]

/-- C25: at the end of the input, an empty accumulator means that nothing more
is written; a non-empty accumulator whose column is within the mask is
finalised as the last field, which is written iff its column is selected, after
the output delimiter if a field of the record was written before, and then the
line end is written once, whether or not a field of the record was written. -/
theorem finish_pending (p : parameters) (s : State) :
    (s.word = [] → finish p s = some s) ∧
    (∀ sel : Bool, s.word ≠ [] → 0 ≤ s.wordCount - 1 →
      (if s.inHeader = true then s.selected ++ [isSelected p s.wordCount]
        else s.selected).get? (s.wordCount - 1).toNat = some sel →
      finish p s
        = some { word := [],
                 selected := if s.inHeader = true then s.selected ++ [isSelected p s.wordCount]
                   else s.selected,
                 inEscaped := s.inEscaped, inHeader := s.inHeader,
                 firstWordWritten := s.firstWordWritten || sel, wordCount := 0,
                 output := s.output ++ (if sel = true then
                   (if s.firstWordWritten = true then p.outputDelimiter else []) ++ s.word
                   else []) ++ p.lineEnd }) := by
  refine ⟨?_, ?_⟩
  · intro h
    simp [finish, h]
  · intro sel hne hcol hsel
    have hpos : s.word.length > 0 := List.length_pos.2 hne
    simp only [finish, hpos, if_true, writeOut_lookup p s true sel hcol hsel]

/-- Witness of C25: the input ends after `a,b` with columns 1 and 2 seen and
only column 1 selected; the pending `b` is dropped and the line end written. -/
theorem finish_pending_witness :
    finish ⟨[⟨1, 1⟩], [COMMA], [COMMA], false, [LF]⟩
        ⟨[0x62], [true], false, true, true, 2, [0x61]⟩
      = some ⟨[], [true, false], false, true, true, 0, [0x61, LF]⟩ :=
  (finish_pending ⟨[⟨1, 1⟩], [COMMA], [COMMA], false, [LF]⟩
    ⟨[0x62], [true], false, true, true, 2, [0x61]⟩).2 false (by decide) (by decide)
    (by decide)

end Csv

namespace Csv
open CsvCut

theorem writeOut_facts (p : parameters) (s s1 : State) (eol : Bool)
    (h : writeOut p s eol = some s1) :
    s1.selected = (if s.inHeader = true then s.selected ++ [isSelected p s.wordCount]
      else s.selected) ∧
    s1.inHeader = s.inHeader ∧ s1.wordCount = s.wordCount ∧ s1.inEscaped = s.inEscaped := by
  unfold writeOut at h
  simp only at h
  split at h
  · exact absurd h (by simp)
  · split at h
    · exact absurd h (by simp)
    · simp only [Option.some.injEq] at h
      subst h
      exact ⟨rfl, rfl, rfl, rfl⟩
    · simp only [Option.some.injEq] at h
      subst h
      exact ⟨rfl, rfl, rfl, rfl⟩

theorem maskEntries_append (p : parameters) (selected : List Bool) (wordCount : Int)
    (h : maskEntries p selected) (hlen : (selected.length : Int) = wordCount - 1) :
    maskEntries p (selected ++ [isSelected p wordCount]) := by
  intro i b hb
  by_cases hi : i < selected.length
  · rw [List.get?_eq_getElem?, List.getElem?_append_left hi, ← List.get?_eq_getElem?] at hb
    exact h i b hb
  · rw [List.get?_eq_getElem?, List.getElem?_append_right (by omega)] at hb
    have hi2 : i - selected.length = 0 := by
      by_contra hne
      have : [isSelected p wordCount][i - selected.length]? = none :=
        List.getElem?_eq_none (by simp; omega)
      rw [this] at hb
      exact absurd hb (by simp)
    rw [hi2] at hb
    simp only [List.getElem?_cons_zero, Option.some.injEq] at hb
    have e : (i : Int) + 1 = wordCount := by omega
    rw [← hb, e]

theorem step_mask (p : parameters) (dEnd tEnd : Byte) (s s1 : State) (c : Byte)
    (h : step p dEnd tEnd s c = some s1) :
    (maskEntries p s.selected →
      (s.inHeader = true → (s.selected.length : Int) = s.wordCount - 1) →
      maskEntries p s1.selected ∧
      (s1.inHeader = true → (s1.selected.length : Int) = s1.wordCount - 1)) ∧
    (s.inHeader = false → s1.selected = s.selected ∧ s1.inHeader = false) ∧
    (s.inHeader = true → s1.inHeader = false →
      (s.selected.length : Int) = s.wordCount - 1 →
      (s1.selected.length : Int) = s.wordCount) := by
  have hstay : ∀ word esc, s1 = { s with word := word, inEscaped := esc } →
      (maskEntries p s.selected →
        (s.inHeader = true → (s.selected.length : Int) = s.wordCount - 1) →
        maskEntries p s1.selected ∧
        (s1.inHeader = true → (s1.selected.length : Int) = s1.wordCount - 1)) ∧
      (s.inHeader = false → s1.selected = s.selected ∧ s1.inHeader = false) ∧
      (s.inHeader = true → s1.inHeader = false →
        (s.selected.length : Int) = s.wordCount - 1 →
        (s1.selected.length : Int) = s.wordCount) := by
    intro word esc e
    subst e
    refine ⟨fun h1 h2 => ⟨h1, h2⟩, fun h1 => ⟨rfl, h1⟩, fun h1 h2 => ?_⟩
    simp only at h2
    rw [h1] at h2
    exact absurd h2 (by simp)
  have hwrite : ∀ (word : Bytes) (eol : Bool) (s2 : State),
      writeOut p { s with word := word } eol = some s2 →
      (maskEntries p s.selected →
        (s.inHeader = true → (s.selected.length : Int) = s.wordCount - 1) →
        maskEntries p s2.selected) ∧
      (s.inHeader = false → s2.selected = s.selected) ∧
      (s.inHeader = true → (s.selected.length : Int) = s.wordCount - 1 →
        (s2.selected.length : Int) = s.wordCount) ∧
      s2.inHeader = s.inHeader ∧ s2.wordCount = s.wordCount := by
    intro word eol s2 hw
    obtain ⟨hsel, hhdr, hwc, _⟩ := writeOut_facts p _ s2 eol hw
    simp only at hsel hhdr hwc
    refine ⟨?_, ?_, ?_, hhdr, hwc⟩
    · intro h1 h2
      rw [hsel]
      cases hh : s.inHeader
      · simpa using h1
      · simp only [if_true]
        exact maskEntries_append p _ _ h1 (h2 hh)
    · intro hh
      rw [hsel, hh]
      simp
    · intro hh hl
      rw [hsel, hh]
      simp only [if_true, List.length_append, List.length_singleton]
      push_cast
      omega
  unfold step at h
  split at h
  · exact hstay _ _ (Option.some.inj h).symm
  · split at h
    · exact hstay _ _ (Option.some.inj h).symm
    · split at h
      · -- the last byte of the delimiter
        simp only at h
        split at h
        · exact absurd h (by simp)
        · split at h
          · split at h
            · exact absurd h (by simp)
            · rename_i s2 hw
              obtain ⟨m1, m2, m3, m4, m5⟩ := hwrite _ _ s2 hw
              have e := (Option.some.inj h).symm
              subst e
              refine ⟨fun h1 h2 => ⟨m1 h1 h2, fun hh => ?_⟩, fun hh => ⟨m2 hh, ?_⟩,
                fun hh hf _ => ?_⟩
              · simp only at hh ⊢
                rw [m4] at hh
                have := m3 hh (h2 hh)
                rw [m5]
                omega
              · simp only
                rw [m4, hh]
              · simp only at hf
                rw [m4, hh] at hf
                exact absurd hf (by simp)
          · have e := (Option.some.inj h).symm
            exact hstay _ s.inEscaped (by rw [e])
      · split at h
        · -- the last byte of the line end
          simp only at h
          split at h
          · exact absurd h (by simp)
          · split at h
            · split at h
              · exact absurd h (by simp)
              · rename_i s2 hw
                obtain ⟨m1, m2, m3, m4, m5⟩ := hwrite _ _ s2 hw
                have e := (Option.some.inj h).symm
                subst e
                refine ⟨fun h1 h2 => ⟨m1 h1 h2, fun hh => ?_⟩, fun hh => ⟨m2 hh, rfl⟩,
                  fun hh _ hl => m3 hh hl⟩
                simp at hh
            · have e := (Option.some.inj h).symm
              exact hstay _ s.inEscaped (by rw [e])
        · have e := (Option.some.inj h).symm
          exact hstay _ s.inEscaped (by rw [e])

end Csv

namespace Csv
open CsvCut

theorem step_lineEnd_complete (p : parameters) (dEnd tEnd : Byte) (s : State) (w : Bytes)
    (sel : Bool) (hq : s.inEscaped = false) (h1 : tEnd ≠ DQUOTE) (h2 : tEnd ≠ dEnd)
    (hw : s.word ++ [tEnd] = w ++ p.lineEnd) (hcol : 0 ≤ s.wordCount - 1)
    (hsel : (if s.inHeader = true then s.selected ++ [isSelected p s.wordCount]
        else s.selected).get? (s.wordCount - 1).toNat = some sel) :
    step p dEnd tEnd s tEnd
      = some { word := [],
               selected := if s.inHeader = true then s.selected ++ [isSelected p s.wordCount]
                 else s.selected,
               inEscaped := false, inHeader := false, firstWordWritten := false,
               wordCount := 1,
               output := s.output ++ (if sel = true then
                   (if s.firstWordWritten = true then p.outputDelimiter else []) ++ w
                   else []) ++
                 (if s.firstWordWritten = true ∨ sel = true then p.lineEnd else []) } := by
  obtain ⟨word, selected, esc, hdr, fww, wc, out⟩ := s
  simp only at hq hw hcol hsel
  subst hq
  have ht : tail? (word ++ [tEnd]) p.lineEnd = some p.lineEnd := by
    rw [hw]; exact tail?_append _ _
  have hk : (word ++ [tEnd]).take ((word ++ [tEnd]).length - p.lineEnd.length) = w := by
    rw [hw]; exact take_append_sub _ _
  have hwo := writeOut_lookup p ⟨w, selected, false, hdr, fww, wc, out⟩ true sel hcol hsel
  simp only at hwo
  simp only [step, h1, h2, and_false, if_false, true_and, if_true, ht, hk, hwo]
  cases sel <;> cases fww <;> simp

theorem step_delimiter_out_of_bounds (p : parameters) (dEnd tEnd : Byte) (s : State)
    (w : Bytes) (hq : s.inEscaped = false) (h1 : dEnd ≠ DQUOTE)
    (hw : s.word ++ [dEnd] = w ++ p.inputDelimiter) (hdr : s.inHeader = false)
    (hlen : (s.selected.length : Int) < s.wordCount) :
    step p dEnd tEnd s dEnd = none := by
  obtain ⟨word, selected, esc, hd, fww, wc, out⟩ := s
  simp only at hq hw hdr hlen
  subst hq
  have ht : tail? (word ++ [dEnd]) p.inputDelimiter = some p.inputDelimiter := by
    rw [hw]; exact tail?_append _ _
  have hwo := writeOut_out_of_bounds p
    ⟨(word ++ [dEnd]).take ((word ++ [dEnd]).length - p.inputDelimiter.length), selected,
      false, hd, fww, wc, out⟩ false hdr hlen
  simp only [step, h1, and_false, if_false, true_and, if_true, ht, hwo]

theorem step_lineEnd_out_of_bounds (p : parameters) (dEnd tEnd : Byte) (s : State)
    (w : Bytes) (hq : s.inEscaped = false) (h1 : tEnd ≠ DQUOTE) (h2 : tEnd ≠ dEnd)
    (hw : s.word ++ [tEnd] = w ++ p.lineEnd) (hdr : s.inHeader = false)
    (hlen : (s.selected.length : Int) < s.wordCount) :
    step p dEnd tEnd s tEnd = none := by
  obtain ⟨word, selected, esc, hd, fww, wc, out⟩ := s
  simp only at hq hw hdr hlen
  subst hq
  have ht : tail? (word ++ [tEnd]) p.lineEnd = some p.lineEnd := by
    rw [hw]; exact tail?_append _ _
  have hwo := writeOut_out_of_bounds p
    ⟨(word ++ [tEnd]).take ((word ++ [tEnd]).length - p.lineEnd.length), selected,
      false, hd, fww, wc, out⟩ true hdr hlen
  simp only [step, h1, h2, and_false, if_false, true_and, if_true, ht, hwo]

theorem finish_out_of_bounds (p : parameters) (s : State) (hne : s.word ≠ [])
    (hdr : s.inHeader = false) (hlen : (s.selected.length : Int) < s.wordCount) :
    finish p s = none := by
  have hpos : s.word.length > 0 := List.length_pos.2 hne
  simp only [finish, hpos, if_true, writeOut_out_of_bounds p s true hdr hlen]

theorem steps_mask (p : parameters) (dEnd tEnd : Byte) (input : Bytes) :
    ∀ s0 s : State, steps p dEnd tEnd s0 input = some s →
      (maskEntries p s0.selected →
        (s0.inHeader = true → (s0.selected.length : Int) = s0.wordCount - 1) →
        maskEntries p s.selected ∧
        (s.inHeader = true → (s.selected.length : Int) = s.wordCount - 1)) ∧
      (s0.inHeader = false → s.selected = s0.selected ∧ s.inHeader = false) := by
  induction input with
  | nil =>
    intro s0 s h
    simp only [steps, Option.some.injEq] at h
    subst h
    exact ⟨fun h1 h2 => ⟨h1, h2⟩, fun h1 => ⟨rfl, h1⟩⟩
  | cons c cs ih =>
    intro s0 s h
    unfold steps at h
    split at h
    · exact absurd h (by simp)
    · rename_i s1 hstep
      obtain ⟨a1, a2, _⟩ := step_mask p dEnd tEnd s0 s1 c hstep
      obtain ⟨b1, b2⟩ := ih s1 s h
      refine ⟨fun h1 h2 => ?_, fun hh => ?_⟩
      · obtain ⟨c1, c2⟩ := a1 h1 h2
        exact b1 c1 c2
      · obtain ⟨c1, c2⟩ := a2 hh
        obtain ⟨d1, d2⟩ := b2 c2
        exact ⟨d1.trans c1, d2⟩

/-- C24: when the byte that completes the line end is read outside quotes and
the column of the last field is within the mask, the step writes the last field
if its column is selected and then the line end iff a field of the record was
written (the flag was set before, or the last field was written just now);
afterwards the column index is 1, the first-word-written flag is cleared and
the header is done. On a well-formed record none of whose columns is selected
the scanner writes no byte. -/
theorem step_lineEnd_terminator (p : parameters) (dEnd tEnd : Byte) :
    (∀ (s : State) (w : Bytes) (sel : Bool), s.inEscaped = false → tEnd ≠ DQUOTE →
      tEnd ≠ dEnd → s.word ++ [tEnd] = w ++ p.lineEnd → 0 ≤ s.wordCount - 1 →
      (if s.inHeader = true then s.selected ++ [isSelected p s.wordCount]
        else s.selected).get? (s.wordCount - 1).toNat = some sel →
      step p dEnd tEnd s tEnd
        = some { word := [],
                 selected := if s.inHeader = true then s.selected ++ [isSelected p s.wordCount]
                   else s.selected,
                 inEscaped := false, inHeader := false, firstWordWritten := false,
                 wordCount := 1,
                 output := s.output ++ (if sel = true then
                     (if s.firstWordWritten = true then p.outputDelimiter else []) ++ w
                     else []) ++
                   (if s.firstWordWritten = true ∨ sel = true then p.lineEnd else []) }) ∧
    (∀ (dInit tInit : Bytes) (f : Bytes) (fs : List Bytes) (rest out : Bytes) (m : Nat)
      (hdr : Bool), WellFormed p dInit dEnd tInit tEnd →
      (∀ g ∈ f :: fs, literalField dEnd tEnd false g = true) →
      (hdr = true → m = 0) → (hdr = false → fs.length < m) →
      selectedColumns p 1 (f :: fs) = [] →
      steps p dEnd tEnd ⟨[], mask p m, false, hdr, false, 1, out⟩
          (recordText p.inputDelimiter p.lineEnd (f :: fs) ++ rest)
        = steps p dEnd tEnd ⟨[], mask p (if hdr = true then fs.length + 1 else m), false,
            false, false, 1, out⟩ rest) := by
  refine ⟨fun s w sel hq h1 h2 hw hcol hsel =>
    step_lineEnd_complete p dEnd tEnd s w sel hq h1 h2 hw hcol hsel, ?_⟩
  intro dInit tInit f fs rest out m hdr wf hlit hh hn hnone
  have hrow := steps_fields p dInit dEnd tInit tEnd wf rest fs f m 0 hdr false out hlit
    (fun h => by simpa using hh h) (fun h => by simpa using hn h)
  have h01 : ((0 : Nat) : Int) + 1 = 1 := by simp
  rw [h01] at hrow
  rw [hrow, rowTail_recordOutput]
  simp [recordOutput, hnone]

/-- Witness of C24: the line end after `a,b` with only column 3 selected
writes nothing; after a written first field it writes the line end. -/
theorem step_lineEnd_terminator_witness :
    step ⟨[⟨3, 3⟩], [COMMA], [COMMA], false, [LF]⟩ COMMA LF
        ⟨[0x62], [false], false, true, false, 2, []⟩ LF
      = some ⟨[], [false, false], false, false, false, 1, []⟩ ∧
    step ⟨[⟨1, 1⟩], [COMMA], [COMMA], false, [LF]⟩ COMMA LF
        ⟨[0x62], [true], false, true, true, 2, [0x61]⟩ LF
      = some ⟨[], [true, false], false, false, false, 1, [0x61, LF]⟩ :=
  ⟨(step_lineEnd_terminator ⟨[⟨3, 3⟩], [COMMA], [COMMA], false, [LF]⟩ COMMA LF).1
      ⟨[0x62], [false], false, true, false, 2, []⟩ [0x62] false rfl (by decide) (by decide)
      (by decide) (by decide) (by decide),
    (step_lineEnd_terminator ⟨[⟨1, 1⟩], [COMMA], [COMMA], false, [LF]⟩ COMMA LF).1
      ⟨[0x62], [true], false, true, true, 2, [0x61]⟩ [0x62] false rfl (by decide) (by decide)
      (by decide) (by decide) (by decide)⟩

/-- C26: in every state that the byte loop reaches from the initial state,
every entry of the selection mask is what `isSelected` says for its column,
and while the header is scanned the mask is as long as the number of header
fields finalised so far (the column index minus 1); the entries also hold after
the end of the input. -/
theorem mask_invariant (p : parameters) (dEnd tEnd : Byte) (input : Bytes) (s : State)
    (h : steps p dEnd tEnd State.init input = some s) :
    maskEntries p s.selected ∧
    (s.inHeader = true → (s.selected.length : Int) = s.wordCount - 1) ∧
    (∀ s1 : State, finish p s = some s1 → maskEntries p s1.selected) := by
  have hinit : maskEntries p State.init.selected := by
    intro i b hb
    simp [State.init] at hb
  obtain ⟨h1, h2⟩ := (steps_mask p dEnd tEnd input State.init s h).1 hinit
    (fun _ => by simp [State.init])
  refine ⟨h1, h2, ?_⟩
  intro s1 hf
  unfold finish at hf
  split at hf
  · split at hf
    · exact absurd hf (by simp)
    · rename_i s2 hw
      obtain ⟨hsel, _, _, _⟩ := writeOut_facts p s s2 true hw
      have e := (Option.some.inj hf).symm
      subst e
      simp only
      rw [hsel]
      cases hh : s.inHeader
      · simpa using h1
      · simp only [if_true]
        exact maskEntries_append p _ _ h1 (h2 hh)
  · have e := (Option.some.inj hf).symm
    subst e
    exact h1

/-- Witness of C26: after `a,b` with only column 2 selected. -/
theorem mask_invariant_witness :
    steps ⟨[⟨2, 2⟩], [COMMA], [COMMA], false, [LF]⟩ COMMA LF State.init (ascii "a,b")
      = some ⟨[0x62], [false], false, true, false, 2, []⟩ ∧
    maskEntries ⟨[⟨2, 2⟩], [COMMA], [COMMA], false, [LF]⟩ [false] :=
  ⟨by decide,
    (mask_invariant ⟨[⟨2, 2⟩], [COMMA], [COMMA], false, [LF]⟩ COMMA LF (ascii "a,b")
      ⟨[0x62], [false], false, true, false, 2, []⟩ (by decide)).1⟩

/-- C27: after the header the selection mask never changes: every later
state has the mask of the state after the first line end, whose length is the
number of columns of the header. When a later record reaches a column beyond
the mask, finalising that column (at a completed delimiter, at a completed line
end, or at the end of the input with a pending field) looks the mask up out of
bounds and the scan fails; so it does with an empty range list, as on
`a,b LF c,d,e LF`. -/
theorem mask_fixed_after_header (p : parameters) (dEnd tEnd : Byte) :
    (∀ (s s1 : State) (input : Bytes), s.inHeader = false →
      steps p dEnd tEnd s input = some s1 → s1.selected = s.selected ∧ s1.inHeader = false) ∧
    (∀ (s s1 : State) (c : Byte), s.inHeader = true →
      (s.selected.length : Int) = s.wordCount - 1 → step p dEnd tEnd s c = some s1 →
      s1.inHeader = false → (s1.selected.length : Int) = s.wordCount) ∧
    (∀ (s : State) (w : Bytes), s.inHeader = false →
      (s.selected.length : Int) < s.wordCount → s.inEscaped = false → dEnd ≠ DQUOTE →
      s.word ++ [dEnd] = w ++ p.inputDelimiter → step p dEnd tEnd s dEnd = none) ∧
    (∀ (s : State) (w : Bytes), s.inHeader = false →
      (s.selected.length : Int) < s.wordCount → s.inEscaped = false → tEnd ≠ DQUOTE →
      tEnd ≠ dEnd → s.word ++ [tEnd] = w ++ p.lineEnd → step p dEnd tEnd s tEnd = none) ∧
    (∀ s : State, s.inHeader = false → (s.selected.length : Int) < s.wordCount →
      s.word ≠ [] → finish p s = none) ∧
    cutFile (ascii "a,b\nc,d,e\n") ⟨[], [COMMA], [COMMA], false, [LF]⟩ = none := by
  refine ⟨?_, ?_, ?_, ?_, ?_, by decide⟩
  · intro s s1 input hh hs
    exact (steps_mask p dEnd tEnd input s s1 hs).2 hh
  · intro s s1 c hh hl hs hf
    exact (step_mask p dEnd tEnd s s1 c hs).2.2 hh hf hl
  · intro s w hh hl hq h1 hw
    exact step_delimiter_out_of_bounds p dEnd tEnd s w hq h1 hw hh hl
  · intro s w hh hl hq h1 h2 hw
    exact step_lineEnd_out_of_bounds p dEnd tEnd s w hq h1 h2 hw hh hl
  · intro s hh hl hne
    exact finish_out_of_bounds p s hne hh hl

/-- Witness of C27: in the record `c,d,e` after the header `a,b`, the delimiter
after `d` finalises column 2, and the line end after `e` fails at column 3. -/
theorem mask_fixed_after_header_witness :
    steps ⟨[], [COMMA], [COMMA], false, [LF]⟩ COMMA LF State.init (ascii "a,b\nc,d,e")
      = some ⟨[0x65], [true, true], false, false, true, 3, ascii "a,b\nc,d"⟩ ∧
    step ⟨[], [COMMA], [COMMA], false, [LF]⟩ COMMA LF
        ⟨[0x65], [true, true], false, false, true, 3, ascii "a,b\nc,d"⟩ LF = none :=
  ⟨by decide,
    (mask_fixed_after_header ⟨[], [COMMA], [COMMA], false, [LF]⟩ COMMA LF).2.2.2.1
      ⟨[0x65], [true, true], false, false, true, 3, ascii "a,b\nc,d"⟩ [0x65] rfl (by decide)
      rfl (by decide) (by decide) (by decide)⟩

end Csv

/-! ## The two tools side by side -/

namespace Cut
open CsvCut

theorem selectedFieldsInner_eq_isSelectedLoop (complement : Bool) (field : Int)
    (ranges : List Range) :
    selectedFieldsInner complement field ranges = Csv.isSelectedLoop complement field ranges := by
  induction ranges with
  | nil => rfl
  | cons r rest ih => simp only [selectedFieldsInner, Csv.isSelectedLoop, ih]

/-- C28: for parameters of the two tools with the same non-empty range list
and the same complement flag, and every total `N`, `selectedFields` of the line
tool is the ascending list of the field numbers in `1..N` for which `isSelected`
of the quoted-record tool is true; for an empty range list `selectedFields` is
empty while `isSelected` is true for every field. -/
theorem selectedFields_agrees_isSelected (pc : parameters) (ps : Csv.parameters)
    (hr : pc.ranges = ps.ranges) (hc : pc.complement = ps.complement) (N : Nat) :
    (ps.ranges ≠ [] → selectedFields pc N = (fieldNumbers N).filter (Csv.isSelected ps)) ∧
    (ps.ranges = [] → selectedFields pc N = [] ∧ ∀ f : Int, Csv.isSelected ps f = true) := by
  refine ⟨?_, ?_⟩
  · intro hne
    have hl : ¬ ps.ranges.length = 0 := by simpa using hne
    rw [selectedFields_eq_filter, hr, hc]
    apply List.filter_congr
    intro f _
    rw [selectedFieldsInner_eq_isSelectedLoop, Csv.isSelected, if_neg hl]
  · intro hnil
    refine ⟨selectedFields_nil pc (hr.trans hnil) N, fun f => ?_⟩
    simp [Csv.isSelected, hnil]

/-- Witness of C28 at the ranges `1,3-` with complement and five fields. -/
theorem selectedFields_agrees_isSelected_witness :
    selectedFields ⟨.fieldMode, [⟨1, 1⟩, ⟨3, 0⟩], [COMMA], [COMMA], false, true⟩ 5
      = (fieldNumbers 5).filter
          (Csv.isSelected ⟨[⟨1, 1⟩, ⟨3, 0⟩], [COMMA], [COMMA], true, [LF]⟩) :=
  (selectedFields_agrees_isSelected
    ⟨.fieldMode, [⟨1, 1⟩, ⟨3, 0⟩], [COMMA], [COMMA], false, true⟩
    ⟨[⟨1, 1⟩, ⟨3, 0⟩], [COMMA], [COMMA], true, [LF]⟩ rfl rfl 5).1 (by decide)

/-- C29: when the ranges select no position of the line, `collectFields`,
`collectBytes` and `collectCharacters` return the one-element list of the whole
line, and `cutLine` returns the line unchanged, not an empty string; so the
range `5` leaves `a,b,c` as it is in field mode and `abc` in byte mode. -/
theorem collect_falls_back_to_line (line : Bytes) (p : parameters) :
    (selectedFields p (stringsSplit line p.inputDelimiter).length = [] →
      collectFields line p = some [line] ∧ (p.mode = .fieldMode → cutLine line p = some line)) ∧
    (selectedFields p line.length = [] →
      collectBytes line p = some [line] ∧ (p.mode = .byteMode → cutLine line p = some line)) ∧
    (selectedFields p (runes line).length = [] →
      collectCharacters line p = some [line] ∧
      (p.mode = .characterMode → cutLine line p = some line)) ∧
    cutLine (ascii "a,b,c") ⟨.fieldMode, parseRanges (ascii "5"), [COMMA], [COMMA], false, false⟩
      = some (ascii "a,b,c") ∧
    cutLine (ascii "abc") ⟨.byteMode, parseRanges (ascii "5"), [0x09], [], false, false⟩
      = some (ascii "abc") := by
  refine ⟨?_, ?_, ?_, by decide, by decide⟩
  · intro h
    have hc : collectFields line p = some [line] := by
      unfold collectFields
      split
      · rfl
      · simp [h]
    exact ⟨hc, fun hm => by simp [cutLine, hm, hc, stringsJoin]⟩
  · intro h
    have hc : collectBytes line p = some [line] := by simp [collectBytes, h]
    exact ⟨hc, fun hm => by simp [cutLine, hm, hc, stringsJoin]⟩
  · intro h
    have hc : collectCharacters line p = some [line] := by simp [collectCharacters, h]
    exact ⟨hc, fun hm => by simp [cutLine, hm, hc, stringsJoin]⟩

/-- Witness of C29 in character mode: the range `5` on the line `€fo`. -/
theorem collect_falls_back_to_line_witness :
    selectedFields ⟨.characterMode, parseRanges (ascii "5"), [0x09], [], false, false⟩
        (runes [0xE2, 0x82, 0xAC, 0x66, 0x6F]).length = [] ∧
    cutLine [0xE2, 0x82, 0xAC, 0x66, 0x6F]
        ⟨.characterMode, parseRanges (ascii "5"), [0x09], [], false, false⟩
      = some [0xE2, 0x82, 0xAC, 0x66, 0x6F] :=
  ⟨by decide,
    ((collect_falls_back_to_line [0xE2, 0x82, 0xAC, 0x66, 0x6F]
      ⟨.characterMode, parseRanges (ascii "5"), [0x09], [], false, false⟩).2.2.1
      (by decide)).2 rfl⟩

end Cut

/-! ## A quoted field and the sequence that follows it -/

namespace Csv
open CsvCut

theorem not_suffix_across_quote (sep w0 p1 : Bytes) (hq : DQUOTE ∉ sep)
    (hlen : p1.length < sep.length) : ¬ sep <:+ (w0 ++ [DQUOTE] ++ p1) := by
  rintro ⟨y, hy⟩
  have hl := congrArg List.length hy
  simp only [List.length_append, List.length_singleton] at hl
  have hi := congrArg (fun l => l[w0.length]?) hy
  simp only at hi
  rw [List.getElem?_append_right (by omega), List.append_assoc,
    List.getElem?_append_right (le_refl _)] at hi
  simp only [Nat.sub_self, List.singleton_append, List.getElem?_cons_zero] at hi
  exact hq (List.getElem?_mem hi)

theorem tail?_eq_some (word sep t : Bytes) (h : tail? word sep = some t) (ht : t = sep) :
    sep <:+ word := by
  unfold tail? at h
  split at h
  · exact absurd h (by simp)
  · have e := Option.some.inj h
    rw [← ht, ← e]
    exact List.drop_suffix _ _

theorem tail?_isSome (word sep : Bytes) (h : sep.length ≤ word.length) :
    ∃ t, tail? word sep = some t := by
  unfold tail?
  rw [if_neg (by omega)]
  exact ⟨_, rfl⟩

theorem step_data (p : parameters) (dEnd tEnd : Byte) (c : Byte) (w : Bytes)
    (sel : List Bool) (hdr fww : Bool) (wc : Int) (out : Bytes) (hq : c ≠ DQUOTE)
    (hd : c = dEnd → p.inputDelimiter.length ≤ w.length + 1 ∧
      ¬ p.inputDelimiter <:+ (w ++ [c]))
    (ht : c = tEnd → c ≠ dEnd → p.lineEnd.length ≤ w.length + 1 ∧
      ¬ p.lineEnd <:+ (w ++ [c])) :
    step p dEnd tEnd ⟨w, sel, false, hdr, fww, wc, out⟩ c
      = some ⟨w ++ [c], sel, false, hdr, fww, wc, out⟩ := by
  by_cases h1 : c = dEnd
  · obtain ⟨hl, hs⟩ := hd h1
    obtain ⟨t, ht1⟩ := tail?_isSome (w ++ [c]) p.inputDelimiter (by simp; omega)
    have hne : ¬ t = p.inputDelimiter := fun e => hs (tail?_eq_some _ _ t ht1 e)
    simp only [step, hq, and_false, if_false, true_and, h1.symm, if_true, ht1, hne]
  · by_cases h2 : c = tEnd
    · obtain ⟨hl, hs⟩ := ht h2 h1
      obtain ⟨t, ht1⟩ := tail?_isSome (w ++ [c]) p.lineEnd (by simp; omega)
      have hne : ¬ t = p.lineEnd := fun e => hs (tail?_eq_some _ _ t ht1 e)
      simp only [step, hq, and_false, if_false, true_and, h1, h2.symm, if_true, ht1, hne]
    · simp only [step, hq, and_false, if_false, true_and, h1, h2]

theorem steps_data (p : parameters) (dEnd tEnd : Byte) (rest : Bytes) (sel : List Bool)
    (hdr fww : Bool) (wc : Int) (out : Bytes) (bs : Bytes) :
    ∀ w : Bytes, (∀ c ∈ bs, c ≠ DQUOTE) →
      (∀ i : Nat, bs[i]? = some dEnd → p.inputDelimiter.length ≤ w.length + i + 1 ∧
        ¬ p.inputDelimiter <:+ (w ++ bs.take (i + 1))) →
      (∀ i : Nat, bs[i]? = some tEnd → tEnd ≠ dEnd → p.lineEnd.length ≤ w.length + i + 1 ∧
        ¬ p.lineEnd <:+ (w ++ bs.take (i + 1))) →
      steps p dEnd tEnd ⟨w, sel, false, hdr, fww, wc, out⟩ (bs ++ rest)
        = steps p dEnd tEnd ⟨w ++ bs, sel, false, hdr, fww, wc, out⟩ rest := by
  induction bs with
  | nil => intro w _ _ _; simp
  | cons c cs ih =>
    intro w hq hd ht
    have hstep := step_data p dEnd tEnd c w sel hdr fww wc out (hq c (by simp))
      (fun e => by
        have := hd 0 (by simp [e])
        simpa using this)
      (fun e hne => by
        have := ht 0 (by simp [e]) (by rw [← e]; exact hne)
        simpa using this)
    have hrec := ih (w ++ [c]) (fun x hx => hq x (by simp [hx]))
      (fun i hi => by
        have := hd (i + 1) (by simpa using hi)
        simp only [List.length_append, List.length_singleton, List.take_succ_cons,
          List.append_assoc, List.singleton_append] at this ⊢
        exact ⟨by omega, this.2⟩)
      (fun i hi hne => by
        have := ht (i + 1) (by simpa using hi) hne
        simp only [List.length_append, List.length_singleton, List.take_succ_cons,
          List.append_assoc, List.singleton_append] at this ⊢
        exact ⟨by omega, this.2⟩)
    have e : steps p dEnd tEnd ⟨w, sel, false, hdr, fww, wc, out⟩ (c :: (cs ++ rest))
        = steps p dEnd tEnd ⟨w ++ [c], sel, false, hdr, fww, wc, out⟩ (cs ++ rest) := by
      simp only [steps, hstep]
    rw [List.cons_append, e, hrec]
    simp

theorem step_delimiter_complete (p : parameters) (dEnd tEnd : Byte) (s : State) (w : Bytes)
    (sel : Bool) (hq : s.inEscaped = false) (h1 : dEnd ≠ DQUOTE)
    (hw : s.word ++ [dEnd] = w ++ p.inputDelimiter) (hcol : 0 ≤ s.wordCount - 1)
    (hsel : (if s.inHeader = true then s.selected ++ [isSelected p s.wordCount]
        else s.selected).get? (s.wordCount - 1).toNat = some sel) :
    step p dEnd tEnd s dEnd
      = some { word := [],
               selected := if s.inHeader = true then s.selected ++ [isSelected p s.wordCount]
                 else s.selected,
               inEscaped := false, inHeader := s.inHeader,
               firstWordWritten := s.firstWordWritten || sel,
               wordCount := s.wordCount + 1,
               output := s.output ++ (if sel = true then
                   (if s.firstWordWritten = true then p.outputDelimiter else []) ++ w
                   else []) } := by
  obtain ⟨word, selected, esc, hdr, fww, wc, out⟩ := s
  simp only at hq hw hcol hsel
  subst hq
  have ht : tail? (word ++ [dEnd]) p.inputDelimiter = some p.inputDelimiter := by
    rw [hw]; exact tail?_append _ _
  have hk : (word ++ [dEnd]).take ((word ++ [dEnd]).length - p.inputDelimiter.length) = w := by
    rw [hw]; exact take_append_sub _ _
  have hwo := writeOut_lookup p ⟨w, selected, false, hdr, fww, wc, out⟩ false sel hcol hsel
  simp only at hwo
  simp only [step, h1, and_false, if_false, true_and, if_true, ht, hk, hwo]

theorem steps_quoted_then_delimiter (p : parameters) (dEnd tEnd : Byte) (dInit : Bytes)
    (s : State) (body rest : Bytes) (sel : Bool)
    (hD : p.inputDelimiter = dInit ++ [dEnd]) (hquote : DQUOTE ∉ p.inputDelimiter)
    (htD : tEnd ∉ dInit)
    (hlen : ∀ i : Nat, dInit[i]? = some dEnd → p.inputDelimiter.length ≤ body.length + 3 + i)
    (hq : s.inEscaped = false) (hw : s.word = []) (hb : DQUOTE ∉ body)
    (hcol : 0 ≤ s.wordCount - 1)
    (hsel : (if s.inHeader = true then s.selected ++ [isSelected p s.wordCount]
        else s.selected).get? (s.wordCount - 1).toNat = some sel) :
    steps p dEnd tEnd s (DQUOTE :: body ++ [DQUOTE] ++ p.inputDelimiter ++ rest)
      = steps p dEnd tEnd
          { word := [],
            selected := if s.inHeader = true then s.selected ++ [isSelected p s.wordCount]
              else s.selected,
            inEscaped := false, inHeader := s.inHeader,
            firstWordWritten := s.firstWordWritten || sel,
            wordCount := s.wordCount + 1,
            output := s.output ++ (if sel = true then
                (if s.firstWordWritten = true then p.outputDelimiter else [])
                  ++ (DQUOTE :: body ++ [DQUOTE])
                else []) } rest := by
  obtain ⟨word, selected, esc, hdr, fww, wc, out⟩ := s
  simp only at hq hw hcol hsel
  subst hq hw
  have hdq : dEnd ≠ DQUOTE := by
    intro e
    apply hquote
    rw [hD, e]
    simp
  have hlit := literalField_of_quoted dEnd tEnd (DQUOTE :: body ++ [DQUOTE]) ⟨body, rfl, hb⟩
  have hsplit : DQUOTE :: body ++ [DQUOTE] ++ p.inputDelimiter ++ rest
      = (DQUOTE :: body ++ [DQUOTE]) ++ (dInit ++ (dEnd :: rest)) := by
    rw [hD]; simp
  rw [hsplit, steps_literal p dEnd tEnd _ _ _ _ _ _ _ _ _ hlit, List.nil_append]
  rw [steps_data p dEnd tEnd (dEnd :: rest) selected hdr fww wc out dInit
    (DQUOTE :: body ++ [DQUOTE])
    (fun c hc e => hquote (by rw [hD, ← e]; simp [hc]))
    (fun i hi => by
      have h1 := hlen i hi
      refine ⟨by simp; omega, ?_⟩
      apply not_suffix_across_quote _ (DQUOTE :: body) _ hquote
      rw [hD]
      simp only [List.length_take, List.length_append, List.length_singleton]
      omega)
    (fun i hi _ => absurd (List.getElem?_mem hi) htD)]
  have hstep := step_delimiter_complete p dEnd tEnd
    ⟨DQUOTE :: body ++ [DQUOTE] ++ dInit, selected, false, hdr, fww, wc, out⟩
    (DQUOTE :: body ++ [DQUOTE]) sel rfl hdq (by rw [hD]; simp) hcol hsel
  simp only [steps, hstep]

theorem steps_quoted_then_lineEnd (p : parameters) (dEnd tEnd : Byte) (tInit : Bytes)
    (s : State) (body rest : Bytes) (sel : Bool)
    (hT : p.lineEnd = tInit ++ [tEnd]) (hquote : DQUOTE ∉ p.lineEnd)
    (hdT : dEnd ∉ p.lineEnd)
    (hlen : ∀ i : Nat, tInit[i]? = some tEnd → p.lineEnd.length ≤ body.length + 3 + i)
    (hq : s.inEscaped = false) (hw : s.word = []) (hb : DQUOTE ∉ body)
    (hcol : 0 ≤ s.wordCount - 1)
    (hsel : (if s.inHeader = true then s.selected ++ [isSelected p s.wordCount]
        else s.selected).get? (s.wordCount - 1).toNat = some sel) :
    steps p dEnd tEnd s (DQUOTE :: body ++ [DQUOTE] ++ p.lineEnd ++ rest)
      = steps p dEnd tEnd
          { word := [],
            selected := if s.inHeader = true then s.selected ++ [isSelected p s.wordCount]
              else s.selected,
            inEscaped := false, inHeader := false, firstWordWritten := false,
            wordCount := 1,
            output := s.output ++ (if sel = true then
                (if s.firstWordWritten = true then p.outputDelimiter else [])
                  ++ (DQUOTE :: body ++ [DQUOTE])
                else []) ++
              (if s.firstWordWritten = true ∨ sel = true then p.lineEnd else []) } rest := by
  obtain ⟨word, selected, esc, hdr, fww, wc, out⟩ := s
  simp only at hq hw hcol hsel
  subst hq hw
  have htq : tEnd ≠ DQUOTE := by
    intro e
    apply hquote
    rw [hT, e]
    simp
  have htd : tEnd ≠ dEnd := by
    intro e
    apply hdT
    rw [hT, e]
    simp
  have hdInit : dEnd ∉ tInit := fun h => hdT (by rw [hT]; simp [h])
  have hlit := literalField_of_quoted dEnd tEnd (DQUOTE :: body ++ [DQUOTE]) ⟨body, rfl, hb⟩
  have hsplit : DQUOTE :: body ++ [DQUOTE] ++ p.lineEnd ++ rest
      = (DQUOTE :: body ++ [DQUOTE]) ++ (tInit ++ (tEnd :: rest)) := by
    rw [hT]; simp
  rw [hsplit, steps_literal p dEnd tEnd _ _ _ _ _ _ _ _ _ hlit, List.nil_append]
  rw [steps_data p dEnd tEnd (tEnd :: rest) selected hdr fww wc out tInit
    (DQUOTE :: body ++ [DQUOTE])
    (fun c hc e => hquote (by rw [hT, ← e]; simp [hc]))
    (fun i hi => absurd (List.getElem?_mem hi) hdInit)
    (fun i hi _ => by
      have h1 := hlen i hi
      refine ⟨by simp; omega, ?_⟩
      apply not_suffix_across_quote _ (DQUOTE :: body) _ hquote
      rw [hT]
      simp only [List.length_take, List.length_append, List.length_singleton]
      omega)]
  have hstep := step_lineEnd_complete p dEnd tEnd
    ⟨DQUOTE :: body ++ [DQUOTE] ++ tInit, selected, false, hdr, fww, wc, out⟩
    (DQUOTE :: body ++ [DQUOTE]) sel rfl htq htd (by rw [hT]; simp) hcol hsel
  simp only [steps, hstep]

theorem steps_quoted_literal (p : parameters) (dEnd tEnd : Byte) (s : State)
    (body rest : Bytes) (hq : s.inEscaped = false) (hb : DQUOTE ∉ body) :
    steps p dEnd tEnd s (DQUOTE :: body ++ [DQUOTE] ++ rest)
      = steps p dEnd tEnd { s with word := s.word ++ (DQUOTE :: body ++ [DQUOTE]) } rest := by
  obtain ⟨word, selected, esc, hdr, fww, wc, out⟩ := s
  simp only at hq
  subst hq
  exact steps_literal p dEnd tEnd _ _ _ _ _ _ _ _ _
    (literalField_of_quoted dEnd tEnd (DQUOTE :: body ++ [DQUOTE]) ⟨body, rfl, hb⟩)

/-- C8, counterexample: with delimiter and line end free of the quote byte the
scan can fail or misread a field of the form quote, body, quote. With the
delimiter `abca` the field of two quote bytes makes the scan fail at the first
`a`. A quoted field in a column that the header does not have makes it fail.
With the delimiter `x LF ;` and line end LF the line end is recognised inside
the delimiter, and column 1 is written as the field followed by `x`. With the
delimiter CR and line end CRLF the scan fails at the LF. -/
theorem cutFile_quoted_field_counterexample :
    DQUOTE ∉ ascii "abca" ∧ DQUOTE ∉ [LF] ∧
    cutFile (ascii "\"\"abcax\n") ⟨[], ascii "abca", ascii "abca", false, [LF]⟩ = none ∧
    cutFile (ascii "a\n\"b\",\"c\"\n") ⟨[], [COMMA], [COMMA], false, [LF]⟩ = none ∧
    steps ⟨[⟨1, 1⟩], ascii "x\n;", [COMMA], false, [LF]⟩ 0x3B LF State.init
        (ascii "\"a\"x\n")
      = some ⟨[], [true], false, false, false, 1, ascii "\"a\"x\n"⟩ ∧
    cutFile (ascii "\"a\"\r\n") ⟨[], [CR], [CR], false, [CR, LF]⟩ = none := by
  decide

/-- C8, amended: a field of the form quote, body, quote with a quote-free body
is read as data, whatever other bytes the body holds (delimiters and line ends
included): from every state outside quotes, for every delimiter and line end,
scanning it only appends its bytes to the accumulator. When the accumulator was
empty, the column of the field is within the mask and the field is followed by
the delimiter (free of the quote byte, holding the last byte of the line end
at most as its own last byte, and each earlier occurrence of its own last byte
at a position `i` with `len(delimiter) ≤ len(body) + 3 + i`), the scanner
finalises exactly the field as one column: it writes the field byte for byte,
both quote bytes included, iff the column is selected, after the output
delimiter if a field of the record was written before, and the column index
goes up by one. The same holds when the field is followed by the line end (free
of the quote byte and of the last byte of the delimiter, with the same bound on
earlier occurrences of its own last byte); then the record ends as well. So
the delimiter `::` gives column 2 of `a::"x::y"::b` as `"x::y"`, and a field
with a line end inside quotes next to a field with doubled quotes is written
whole. -/
theorem steps_quoted_field (p : parameters) (dEnd tEnd : Byte) :
    (∀ (s : State) (body rest : Bytes), s.inEscaped = false → DQUOTE ∉ body →
      steps p dEnd tEnd s (DQUOTE :: body ++ [DQUOTE] ++ rest)
        = steps p dEnd tEnd { s with word := s.word ++ (DQUOTE :: body ++ [DQUOTE]) } rest) ∧
    (∀ (dInit : Bytes) (s : State) (body rest : Bytes) (sel : Bool),
      p.inputDelimiter = dInit ++ [dEnd] → DQUOTE ∉ p.inputDelimiter → tEnd ∉ dInit →
      (∀ i : Nat, dInit[i]? = some dEnd → p.inputDelimiter.length ≤ body.length + 3 + i) →
      s.inEscaped = false → s.word = [] → DQUOTE ∉ body → 0 ≤ s.wordCount - 1 →
      (if s.inHeader = true then s.selected ++ [isSelected p s.wordCount]
        else s.selected).get? (s.wordCount - 1).toNat = some sel →
      steps p dEnd tEnd s (DQUOTE :: body ++ [DQUOTE] ++ p.inputDelimiter ++ rest)
        = steps p dEnd tEnd
            { word := [],
              selected := if s.inHeader = true then s.selected ++ [isSelected p s.wordCount]
                else s.selected,
              inEscaped := false, inHeader := s.inHeader,
              firstWordWritten := s.firstWordWritten || sel,
              wordCount := s.wordCount + 1,
              output := s.output ++ (if sel = true then
                  (if s.firstWordWritten = true then p.outputDelimiter else [])
                    ++ (DQUOTE :: body ++ [DQUOTE])
                  else []) } rest) ∧
    (∀ (tInit : Bytes) (s : State) (body rest : Bytes) (sel : Bool),
      p.lineEnd = tInit ++ [tEnd] → DQUOTE ∉ p.lineEnd → dEnd ∉ p.lineEnd →
      (∀ i : Nat, tInit[i]? = some tEnd → p.lineEnd.length ≤ body.length + 3 + i) →
      s.inEscaped = false → s.word = [] → DQUOTE ∉ body → 0 ≤ s.wordCount - 1 →
      (if s.inHeader = true then s.selected ++ [isSelected p s.wordCount]
        else s.selected).get? (s.wordCount - 1).toNat = some sel →
      steps p dEnd tEnd s (DQUOTE :: body ++ [DQUOTE] ++ p.lineEnd ++ rest)
        = steps p dEnd tEnd
            { word := [],
              selected := if s.inHeader = true then s.selected ++ [isSelected p s.wordCount]
                else s.selected,
              inEscaped := false, inHeader := false, firstWordWritten := false,
              wordCount := 1,
              output := s.output ++ (if sel = true then
                  (if s.firstWordWritten = true then p.outputDelimiter else [])
                    ++ (DQUOTE :: body ++ [DQUOTE])
                  else []) ++
                (if s.firstWordWritten = true ∨ sel = true then p.lineEnd else []) } rest) ∧
    cutFile (ascii "a::\"x::y\"::b\n") ⟨[⟨2, 2⟩], ascii "::", ascii "::", false, [LF]⟩
      = some (ascii "\"x::y\"\n") ∧
    cutFile (ascii "\"a\"\"b\",\"x,\ny\",c\r\n") ⟨[⟨2, 2⟩], [COMMA], [COMMA], false, [CR, LF]⟩
      = some (ascii "\"x,\ny\"\r\n") := by
  refine ⟨?_, ?_, ?_, by decide, by decide⟩
  · intro s body rest hq hb
    exact steps_quoted_literal p dEnd tEnd s body rest hq hb
  · intro dInit s body rest sel hD hquote htD hlen hq hw hb hcol hsel
    exact steps_quoted_then_delimiter p dEnd tEnd dInit s body rest sel hD hquote htD hlen hq hw
      hb hcol hsel
  · intro tInit s body rest sel hT hquote hdT hlen hq hw hb hcol hsel
    exact steps_quoted_then_lineEnd p dEnd tEnd tInit s body rest sel hT hquote hdT hlen hq hw
      hb hcol hsel

/-- Witness of C8 (amended): after `a::` with the delimiter `::` and only
column 2 selected, the field `"x::y"` and the delimiter after it. -/
theorem steps_quoted_field_witness :
    steps ⟨[⟨2, 2⟩], ascii "::", ascii "::", false, [LF]⟩ 0x3A LF
        ⟨[], [false], false, true, false, 2, []⟩
        (DQUOTE :: ascii "x::y" ++ [DQUOTE] ++ ascii "::" ++ ascii "b\n")
      = steps ⟨[⟨2, 2⟩], ascii "::", ascii "::", false, [LF]⟩ 0x3A LF
          ⟨[], [false, true], false, true, true, 3, DQUOTE :: ascii "x::y" ++ [DQUOTE]⟩
          (ascii "b\n") :=
  (steps_quoted_field ⟨[⟨2, 2⟩], ascii "::", ascii "::", false, [LF]⟩ 0x3A LF).2.1
    [0x3A] ⟨[], [false], false, true, false, 2, []⟩ (ascii "x::y") (ascii "b\n") true
    rfl (by decide) (by decide) (fun i _ => by show 2 ≤ 4 + 3 + i; omega) rfl rfl (by decide)
    (by decide) (by decide)

end Csv
